import Mathlib

/-!
Verification development for the speed-reader RSVP engine
(`src/lib/engine/tokenizer.ts`, `timing.ts`, `chunked-processor.ts` and the
engine entry points in `src/lib/engine/index.ts`).

Modelling conventions:
* JS strings are modelled as `List Char` (`Str`); the ASCII whitespace class
  of `/\s/` is modelled by `jsSpace`.
* JS numbers are modelled as exact rationals `ℚ`; `Math.round x` is `round x`
  (both are floor of `x + 1/2`).  The chunked processor stores the two
  slide-count estimates as naturals; `Math.ceil (a * (b / c))` on naturals is
  implemented by the exact natural ceiling division `ceilDivNat (a * b) c`,
  which computes the same value.
* In-place mutation of slide arrays is modelled functionally: each mutating
  routine returns the updated list / state.
* Loops are implemented by structural recursion on an explicit fuel that is
  always at least the number of iterations the JS loop performs.
-/

/-- JS strings are modelled as lists of characters. -/
abbrev Str := List Char

/-- The character class matched by the JS regex `/\s/` (ASCII part). -/
def jsSpace (c : Char) : Bool :=
  c = ' ' || c = '\t' || c = '\n' || c = '\r' || c = '\x0b' || c = '\x0c'

/-- The punctuation characters `[.,?!:;]` used by the tokenizer. -/
def punctChar (c : Char) : Bool :=
  c = '.' || c = ',' || c = '?' || c = '!' || c = ':' || c = ';'

/-- The sentence-ending characters `['.', '?', '!']`. -/
def periodChar (c : Char) : Bool :=
  c = '.' || c = '?' || c = '!'

/-- The clause characters `[',', ';', ':']`. -/
def commaChar (c : Char) : Bool :=
  c = ',' || c = ';' || c = ':'

/-- `String.prototype.trim`: strip leading and trailing whitespace. -/
def jsTrim (s : Str) : Str :=
  (s.dropWhile jsSpace).reverse.dropWhile jsSpace |>.reverse

/-- `Array.prototype.join(' ')` on a list of strings. -/
def joinSpace : List Str → Str
  | [] => []
  | [w] => w
  | w :: rest => w ++ ' ' :: joinSpace rest

/-- One pass of `String.prototype.replace(pat, repl)` with a global literal
pattern: replace every (leftmost, non-overlapping) occurrence of `pat`.
Fuel-structural; the wrapper passes fuel `s.length`, which suffices because
every step consumes at least one character of `s` (patterns are non-empty). -/
def replaceAllAux (pat repl : Str) : ℕ → Str → Str
  | 0, s => s
  | fuel + 1, s =>
    match s with
    | [] => []
    | c :: rest =>
      if pat ≠ [] ∧ pat.isPrefixOf (c :: rest) then
        repl ++ replaceAllAux pat repl fuel ((c :: rest).drop pat.length)
      else
        c :: replaceAllAux pat repl fuel rest

/-- Replace every occurrence of the literal pattern `pat` by `repl`. -/
def replaceAll (pat repl s : Str) : Str :=
  replaceAllAux pat repl s.length s

/-- `htmlDecode` (tokenizer.ts): we model the server-side fallback branch,
a chain of entity replacements.  (The browser branch uses the DOM and is
outside the model.) -/
def htmlDecode (s : Str) : Str :=
  replaceAll ['&', 'n', 'b', 's', 'p', ';'] [' ']
    (replaceAll ['&', '#', '3', '9', ';'] [Char.ofNat 39]
      (replaceAll ['&', 'q', 'u', 'o', 't', ';'] ['"']
        (replaceAll ['&', 'g', 't', ';'] ['>']
          (replaceAll ['&', 'l', 't', ';'] ['<']
            (replaceAll ['&', 'a', 'm', 'p', ';'] ['&'] s)))))

/-- The regex step `text.replace(/([.,?!:;])(?! )/g, '$1 ')`: insert a space
after each punctuation character that is not already followed by `' '`. -/
def addPunctSpace : Str → Str
  | [] => []
  | [c] => if punctChar c then [c, ' '] else [c]
  | c :: d :: rest =>
    if punctChar c && d ≠ ' ' then c :: ' ' :: addPunctSpace (d :: rest)
    else c :: addPunctSpace (d :: rest)

/-- `text.match(/\S+/g) || []`: the maximal runs of non-whitespace
characters, in order.  Fuel-structural on the string length. -/
def jsWordsAux : ℕ → Str → List Str
  | 0, _ => []
  | fuel + 1, s =>
    let s1 := s.dropWhile jsSpace
    match s1 with
    | [] => []
    | _ =>
      s1.takeWhile (fun c => !jsSpace c) ::
        jsWordsAux fuel (s1.dropWhile (fun c => !jsSpace c))

/-- All `/\S+/g` matches of a string. -/
def jsWords (s : Str) : List Str := jsWordsAux s.length s

/-- `String.prototype.split(/\s+/)`: the non-whitespace runs, plus a leading
empty string when the string starts with whitespace and a trailing empty
string when it ends with whitespace; the empty string splits to `[""]`. -/
def jsSplitWS : Str → List Str
  | [] => [[]]
  | c :: rest =>
    (if jsSpace c then [([] : Str)] else []) ++ jsWords (c :: rest) ++
      (match (c :: rest).getLast? with
       | some d => if jsSpace d then [([] : Str)] else []
       | none => [])

/-- `isPunctuationOnly` (tokenizer.ts): after removing whitespace,
punctuation and symbols nothing remains.  For the ASCII range, the removed
class `[\s\p{P}\p{S}]` is exactly the non-alphanumeric characters, so the
test is "contains no alphanumeric character". -/
def isPunctuationOnly (s : Str) : Bool :=
  s.all (fun c => !c.isAlphanum)

/-- Exact natural ceiling division: `ceilDivNat a b = ⌈a / b⌉` for `b > 0`
(and `0` when `b = 0`).  Used to model `Math.ceil` applied to a quotient of
naturals. -/
def ceilDivNat (a b : ℕ) : ℕ := (a + b - 1) / b

/-- The timing algorithm selector (`ReaderSettings.algorithm`). -/
inductive Algorithm where
  | basic
  | wordLength
  | wordFrequency
deriving DecidableEq, Repr

/-- The text position selector (presentation-only). -/
inductive TextPosition where
  | centered
  | left
  | optimal
  | optimalWithFocal
deriving DecidableEq, Repr

/-- `ReaderSettings` (types.ts). -/
structure ReaderSettings where
  wpm : ℚ
  chunkSize : ℕ
  font : Str
  fontSize : ℚ
  algorithm : Algorithm
  textPosition : TextPosition
  pauseAfterComma : Bool
  pauseAfterPeriod : Bool
  pauseAfterParagraph : Bool
  pauseAfterCommaDelay : ℚ
  pauseAfterPeriodDelay : ℚ
  pauseAfterParagraphDelay : ℚ
  highlightOptimalLetter : Bool
  highlightColor : Str
  focalCharacter : Str
  minSlideDuration : ℚ
  wordFreqHighDuration : ℚ
  wordFreqLowDuration : ℚ
deriving DecidableEq, Repr

/-- `DEFAULT_SETTINGS` (types.ts). -/
def DEFAULT_SETTINGS : ReaderSettings where
  wpm := 300
  chunkSize := 1
  font := ['s', 'y', 's', 't', 'e', 'm', '-', 'u', 'i']
  fontSize := 48
  algorithm := Algorithm.basic
  textPosition := TextPosition.optimal
  pauseAfterComma := true
  pauseAfterPeriod := true
  pauseAfterParagraph := true
  pauseAfterCommaDelay := 250
  pauseAfterPeriodDelay := 450
  pauseAfterParagraphDelay := 700
  highlightOptimalLetter := true
  highlightColor := ['#', 'e', 'f', '4', '4', '4', '4']
  focalCharacter := ['.']
  minSlideDuration := 50
  wordFreqHighDuration := 40
  wordFreqLowDuration := 300

/-- `TextSlide` (types.ts). -/
structure TextSlide where
  text : Str
  textOriginal : Str
  duration : ℚ
  preDelay : ℚ
  postDelay : ℚ
  wpm : ℚ
  optimalLetterPosition : ℕ
  pixelOffset : ℚ
  slideNumber : ℕ
  wordsInSlide : ℕ
  isChildOfPrevious : Bool
  hasBeenReversed : Bool
deriving DecidableEq, Repr

/-- `FirstPassItem` (tokenizer.ts). -/
structure FirstPassItem where
  text : Str
  textOriginal : Str
  slideNumber : ℕ
  isChildOfPrevious : Bool
deriving DecidableEq, Repr

/-- `SlideShowData` (types.ts).  `realWPM` is the rounded value. -/
structure SlideShowData where
  totalDuration : ℚ
  totalDurationWithPauses : ℚ
  totalSlides : ℕ
  minDuration : ℚ
  maxDuration : ℚ
  realWPM : ℤ
deriving DecidableEq, Repr

/-- Modelled from the spec: the word-frequency collaborator
(`word-frequency.ts`, not under `src/`).  The spec describes it as a stable
deterministic lookup `information(word) → number` with documented bounds
`INFO_LOW`/`INFO_HIGH`; we keep the lookup function and the two bound
constants abstract. -/
structure FreqModel where
  infoLow : ℚ
  infoHigh : ℚ
  wordInfo : Str → ℚ

/-- A vowel test, JS `'aeiou'.includes(c)` after `toLowerCase`. -/
def isVowel (c : Char) : Bool :=
  let l := c.toLower
  l = 'a' || l = 'e' || l = 'i' || l = 'o' || l = 'u'

/-- The break-point search inside `splitLongWord` (tokenizer.ts): scan
`i = maxLength - 2` down to `⌊maxLength / 2⌋`, returning `i + 1` for the
first position where `remaining[i]` is a vowel and `remaining[i+1]` exists
and is not a vowel, or `maxLength` when no such position exists. -/
def breakPoint (remaining : Str) (maxLength : ℕ) : ℕ :=
  let candidates := ((List.range (maxLength - 1)).filter
    (fun i => maxLength / 2 ≤ i)).reverse
  match candidates.find? (fun i =>
      match remaining[i]?, remaining[i + 1]? with
      | some c, some d => isVowel c && !isVowel d
      | _, _ => false) with
  | some i => i + 1
  | none => maxLength

/-- The `while (remaining.length > maxLength)` loop of `splitLongWord`,
fuel-structural; each round removes at least one character (for
`maxLength ≥ 1` the break point is ≥ 1), so fuel `w.length` suffices. -/
def splitLongWordAux (maxLength : ℕ) : ℕ → Str → List Str
  | 0, remaining => if remaining = [] then [] else [remaining]
  | fuel + 1, remaining =>
    if maxLength < remaining.length then
      let bp := breakPoint remaining maxLength
      remaining.take bp :: splitLongWordAux maxLength fuel (remaining.drop bp)
    else if remaining = [] then [] else [remaining]

/-- `splitLongWord` (tokenizer.ts) with its default `maxLength = 10`. -/
def splitLongWord (word : Str) (maxLength : ℕ := 10) : List Str :=
  splitLongWordAux maxLength word.length word

/-- The `forEach` over the parts of a hyphen-split word.  Empty parts are
skipped (`if (part)`), but the hyphen-append test and the continuation flag
use the raw part index, and a part with index > 0 reads `slideNumber - 1`,
which is `n` when part 0 was non-empty (`slideNumber++` ran) and `n - 1`
otherwise. -/
def hyphenItemsAux (word : Str) (n total : ℕ) (bumped : Bool) :
    ℕ → List Str → List FirstPassItem
  | _, [] => []
  | idx, p :: rest =>
    (if p = [] then []
     else [{ text := if idx < total - 1 then p ++ ['-'] else p
             textOriginal := word
             slideNumber := if idx = 0 then n else (if bumped then n + 1 else n) - 1
             isChildOfPrevious := decide (0 < idx) }]) ++
      hyphenItemsAux word n total bumped (idx + 1) rest

/-- The items pushed for one hyphenated word that is split at its hyphens. -/
def hyphenItems (word : Str) (n : ℕ) : List FirstPassItem :=
  let parts := word.splitOn '-'
  hyphenItemsAux word n parts.length (decide (parts.head? ≠ some ([] : Str))) 0 parts

/-- The fresh slide number after pushing a hyphen-split word's items:
`slideNumber++` ran exactly when part 0 was non-empty. -/
def hyphenNext (word : Str) (n : ℕ) : ℕ :=
  if (word.splitOn '-').head? ≠ some ([] : Str) then n + 1 else n

/-- The `forEach` over the pieces of an over-long word: a trailing hyphen
on all but the last piece, the shared slide number `n`, and the
continuation flag on every piece but the first. -/
def longWordItemsAux (word : Str) (n total : ℕ) :
    ℕ → List Str → List FirstPassItem
  | _, [] => []
  | idx, p :: rest =>
    { text := if idx < total - 1 then p ++ ['-'] else p
      textOriginal := word
      slideNumber := n
      isChildOfPrevious := decide (0 < idx) } ::
      longWordItemsAux word n total (idx + 1) rest

/-- The items pushed for one over-long word split by `splitLongWord`. -/
def longWordItems (word : Str) (n : ℕ) : List FirstPassItem :=
  longWordItemsAux word n (splitLongWord word).length 0 (splitLongWord word)

/-- The per-word loop body of `splitTextFirstPass`; returns the pushed items
together with the next fresh slide number. -/
def firstPassWord (settings : ReaderSettings) (word : Str) (n : ℕ) :
    List FirstPassItem × ℕ :=
  if word.contains '-' && 1 < word.length && settings.chunkSize = 1 then
    let parts := word.splitOn '-'
    if parts.length = 2 && word.length ≤ 12 then
      ([{ text := word, textOriginal := word, slideNumber := n
          isChildOfPrevious := false }], n + 1)
    else
      (hyphenItems word n, hyphenNext word n)
  else if 17 < word.length && settings.chunkSize = 1 then
    (longWordItems word n, n + 1)
  else
    ([{ text := word, textOriginal := word, slideNumber := n
        isChildOfPrevious := false }], n + 1)

/-- The word loop of `splitTextFirstPass` over the split word list. -/
def firstPassLoop (settings : ReaderSettings) : List Str → ℕ → List FirstPassItem
  | [], _ => []
  | w :: rest, n =>
    let r := firstPassWord settings w n
    r.1 ++ firstPassLoop settings rest r.2

/-- `splitTextFirstPass` (tokenizer.ts): decode HTML entities, insert a
space after unspaced punctuation, split on whitespace, then apply the
hyphen / long-word fragmentation rules (only at `chunkSize = 1`). -/
def splitTextFirstPass (selectedText : Str) (settings : ReaderSettings) :
    List FirstPassItem :=
  if selectedText = [] then []
  else
    firstPassLoop settings (jsWords (addPunctSpace (htmlDecode selectedText))) 1

/-- `splitTextSecondPass` (tokenizer.ts) with `deleteEmpty = true`: drop
empty / whitespace-only and punctuation-only items. -/
def splitTextSecondPass (firstPass : List FirstPassItem) : List FirstPassItem :=
  firstPass.filter (fun item =>
    !(item.text = [] || jsTrim item.text = []) && !isPunctuationOnly item.text)

/-- `calculateORP` (tokenizer.ts). -/
def calculateORP (text : Str) : ℕ :=
  let length := text.length
  if length = 1 then 1
  else if length ≤ 4 then 2
  else if length ≤ 9 then 3
  else 4

/-- `calculatePixelOffset` (tokenizer.ts): we model the measurement-free
fallback branch `(orpPosition - 0.5) * fontSize * 0.6` (the browser branch
uses canvas text metrics, outside the model). -/
def calculatePixelOffset (_text : Str) (orpPosition : ℕ) (_font : Str)
    (fontSize : ℚ) : ℚ :=
  ((orpPosition : ℚ) - 1 / 2) * (fontSize * (3 / 5))

/-- `getPunctuationDelay` (tokenizer.ts): pre-delay is always 0; post-delay
from the slide's final character, the period rule overriding the comma rule,
and any embedded newline raising it to at least the paragraph delay. -/
def getPunctuationDelay (text : Str) (settings : ReaderSettings) : ℚ × ℚ :=
  let lastChar := text.getLast?.getD ' '
  let d1 : ℚ :=
    if commaChar lastChar && settings.pauseAfterComma then
      settings.pauseAfterCommaDelay
    else 0
  let d2 : ℚ :=
    if periodChar lastChar && settings.pauseAfterPeriod then
      settings.pauseAfterPeriodDelay
    else d1
  let d3 : ℚ :=
    if (text.contains '\n' || text.contains '\r') && settings.pauseAfterParagraph then
      max d2 settings.pauseAfterParagraphDelay
    else d2
  (0, d3)

/-- The inner chunk-building loop of `tokenizeText`: take up to `budget`
items, ending the group early after an item whose last character is one of
`[',', ';', ':', '.', '?', '!']` or whose text contains a newline. -/
def takeChunk : ℕ → List FirstPassItem → List FirstPassItem
  | 0, _ => []
  | _ + 1, [] => []
  | budget + 1, item :: rest =>
    if punctChar (item.text.getLast?.getD ' ') then [item]
    else if item.text.contains '\n' then [item]
    else item :: takeChunk budget rest

/-- Build one slide of `tokenizeText` from a grouped run of items. -/
def mkSlide (settings : ReaderSettings) (curNum : ℕ)
    (grp : List FirstPassItem) : TextSlide :=
  let text := jsTrim (joinSpace (grp.map (·.text)))
  let orp := calculateORP text
  let pd := getPunctuationDelay text settings
  { text := text
    textOriginal := ((grp.head?.map (·.textOriginal)).getD [])
    duration := 0
    preDelay := pd.1
    postDelay := pd.2
    wpm := settings.wpm
    optimalLetterPosition := orp
    pixelOffset := calculatePixelOffset text orp settings.font settings.fontSize
    slideNumber := curNum
    wordsInSlide := grp.length
    isChildOfPrevious := ((grp.head?.map (·.isChildOfPrevious)).getD false)
    hasBeenReversed := false }

/-- The main slide-building loop of `tokenizeText`.  `curNum` is
`currentSlideNumber`: every slide is stamped with the current value, which
is incremented only after a non-continuation slide.  Fuel-structural; each
round consumes at least one item, so fuel `items.length` suffices.  (For
`chunkSize = 0` the JS loop would not terminate; the model stops.) -/
def buildSlides (settings : ReaderSettings) :
    ℕ → ℕ → List FirstPassItem → List TextSlide
  | 0, _, _ => []
  | _ + 1, _, [] => []
  | fuel + 1, curNum, item :: rest =>
    match takeChunk settings.chunkSize (item :: rest) with
    | [] => []
    | g :: gs =>
      mkSlide settings curNum (g :: gs) ::
        buildSlides settings fuel
          (if g.isChildOfPrevious then curNum else curNum + 1)
          ((item :: rest).drop (g :: gs).length)

/-- The final fix-up of `tokenizeText`: force `postDelay = 0` on the last
slide. -/
def zeroLastPostDelay : List TextSlide → List TextSlide
  | [] => []
  | [s] => [{ s with postDelay := 0 }]
  | s :: t :: rest => s :: zeroLastPostDelay (t :: rest)

/-- `tokenizeText` (tokenizer.ts): first pass, second pass, grouping into
slides, and forcing the last slide's post-delay to zero. -/
def tokenizeText (text : Str) (settings : ReaderSettings) : List TextSlide :=
  let secondPass := splitTextSecondPass (splitTextFirstPass text settings)
  zeroLastPostDelay (buildSlides settings secondPass.length 1 secondPass)

/-- The minimum-duration clamp shared by all three timing algorithms. -/
def clampMin (settings : ReaderSettings) (d : ℚ) : ℚ :=
  if d < settings.minSlideDuration then settings.minSlideDuration else d

/-- `applyBasicTiming` (timing.ts). -/
def applyBasicTiming (slides : List TextSlide) (settings : ReaderSettings) :
    List TextSlide :=
  let durationPerWord := 60 / settings.wpm * 1000
  slides.map (fun s =>
    { s with duration := clampMin settings (durationPerWord * s.wordsInSlide) })

/-- `applyWordLengthTiming` (timing.ts). -/
def applyWordLengthTiming (slides : List TextSlide) (settings : ReaderSettings) :
    List TextSlide :=
  let totalSegments : ℚ := slides.length
  let totalDuration := totalSegments / settings.wpm * 60000
  let totalLength : ℚ := (slides.map (fun s => (s.text.length : ℚ))).sum
  let timePerChar := totalDuration / totalLength
  slides.map (fun s =>
    { s with duration := clampMin settings (timePerChar * s.text.length) })

/-- The punctuation class stripped before the frequency lookup,
`/[.,?!;:'"()[\]{}]/g`. -/
def freqStripChar (c : Char) : Bool :=
  c = '.' || c = ',' || c = '?' || c = '!' || c = ';' || c = ':' ||
  c = Char.ofNat 39 || c = '"' || c = '(' || c = ')' || c = '[' || c = ']' ||
  c = Char.ofNat 123 || c = Char.ofNat 125

/-- `applyWordFrequencyTiming` (timing.ts), parameterised by the abstract
word-frequency collaborator. -/
def applyWordFrequencyTiming (fm : FreqModel) (slides : List TextSlide)
    (settings : ReaderSettings) : List TextSlide :=
  let durShort := settings.wordFreqHighDuration
  let durLong := settings.wordFreqLowDuration
  let a := (durLong - durShort) / (fm.infoHigh - fm.infoLow)
  let b := durShort - fm.infoLow * a
  slides.map (fun s =>
    let words := jsSplitWS s.text
    let totalInfo : ℚ := (words.map (fun w =>
      let cleanWord := w.filter (fun c => !freqStripChar c)
      if cleanWord ≠ [] then fm.wordInfo cleanWord else 0)).sum
    let avgInfo := totalInfo / (words.length : ℚ)
    { s with duration := clampMin settings ((a * avgInfo + b) * s.wordsInSlide) })

/-- `applyTiming` (timing.ts): dispatch on the selected algorithm. -/
def applyTiming (fm : FreqModel) (slides : List TextSlide)
    (settings : ReaderSettings) : List TextSlide :=
  match settings.algorithm with
  | Algorithm.wordLength => applyWordLengthTiming slides settings
  | Algorithm.wordFrequency => applyWordFrequencyTiming fm slides settings
  | Algorithm.basic => applyBasicTiming slides settings

/-- `calculateSlideShowData` (timing.ts). -/
def calculateSlideShowData (slides : List TextSlide)
    (settings : ReaderSettings) : SlideShowData :=
  match slides with
  | [] =>
    { totalDuration := 0, totalDurationWithPauses := 0, totalSlides := 0
      minDuration := 0, maxDuration := 0, realWPM := 0 }
  | s0 :: _ =>
    let totalDuration : ℚ := (slides.map (·.duration)).sum
    let totalDurationWithPauses : ℚ :=
      (slides.map (fun s => s.duration + s.preDelay + s.postDelay)).sum
    let totalWords : ℕ := (slides.map (·.wordsInSlide)).sum
    let minDuration :=
      slides.foldl (fun m s => if s.duration < m then s.duration else m) s0.duration
    let maxDuration :=
      slides.foldl (fun m s => if m < s.duration then s.duration else m) s0.duration
    let realWPM : ℚ :=
      if 0 < totalDuration then (totalWords : ℚ) / totalDuration * 60000
      else settings.wpm
    { totalDuration := totalDuration
      totalDurationWithPauses := totalDurationWithPauses
      totalSlides := slides.length
      minDuration := minDuration
      maxDuration := maxDuration
      realWPM := round realWPM }

/-- `adjustTimingByWPM` (timing.ts): scale every duration by
`currentWPM / newWPM` and stamp every slide with the new WPM. -/
def adjustTimingByWPM (slides : List TextSlide) (currentWPM newWPM : ℚ) :
    List TextSlide :=
  slides.map (fun s =>
    { s with duration := s.duration * (currentWPM / newWPM), wpm := newWPM })

/-- The result record of `processText` (index.ts). -/
structure ProcessResult where
  slides : List TextSlide
  stats : SlideShowData
deriving DecidableEq, Repr

/-- `processText` (index.ts): tokenize, apply timing, compute stats. -/
def processText (fm : FreqModel) (text : Str) (settings : ReaderSettings) :
    ProcessResult :=
  let slides := applyTiming fm (tokenizeText text settings) settings
  { slides := slides, stats := calculateSlideShowData slides settings }

/-- `ContentBlockType` (types.ts). -/
inductive ContentBlockType where
  | text
  | code
  | heading
  | blockquote
  | image
  | list
  | table
  | hr
deriving DecidableEq, Repr

/-- Content-block metadata (types.ts). -/
structure BlockMeta where
  language : Option Str
  level : Option ℕ
  src : Option Str
  alt : Option Str
  ordered : Option Bool
deriving DecidableEq, Repr

/-- `ContentBlock` (types.ts). -/
structure ContentBlock where
  type : ContentBlockType
  content : Str
  metadata : Option BlockMeta
deriving DecidableEq, Repr

/-- `ParsedContent` (types.ts). -/
structure ParsedContent where
  blocks : List ContentBlock
  title : Option Str
  source : Option Str
deriving DecidableEq, Repr

/-- A slide as produced by `processContent`: a `TextSlide` optionally
carrying the dynamically attached `blockType` / `metadata` fields. -/
structure CSlide where
  core : TextSlide
  blockType : Option ContentBlockType
  metadata : Option BlockMeta
deriving DecidableEq, Repr

/-- `createBlockSlide` (index.ts): one verbatim slide for a non-text block,
with a duration from the block kind (scaled 3–15 s by line count for code
and tables) and `postDelay = settings.pauseAfterParagraphDelay`. -/
def createBlockSlide (block : ContentBlock) (settings : ReaderSettings)
    (btype : ContentBlockType) : CSlide :=
  let baseLineDuration : ℚ := 500
  let lineCount : ℕ := (block.content.splitOn '\n').length
  let dur : ℚ :=
    match btype with
    | ContentBlockType.code => max 3000 (min 15000 (lineCount * baseLineDuration))
    | ContentBlockType.table => max 3000 (min 15000 (lineCount * baseLineDuration))
    | ContentBlockType.heading => 1500
    | ContentBlockType.image => 3000
    | _ => 1000
  { core :=
      { text := block.content
        textOriginal := block.content
        duration := dur
        preDelay := 0
        postDelay := settings.pauseAfterParagraphDelay
        wpm := settings.wpm
        optimalLetterPosition := 1
        pixelOffset := 0
        slideNumber := 0
        wordsInSlide := (jsSplitWS block.content).length
        isChildOfPrevious := false
        hasBeenReversed := false }
    blockType := some btype
    metadata := block.metadata }

/-- The per-block loop of `processContent`: the slides emitted for every
block, plus the starting slide index recorded for each block (recorded for
every block, including `hr`, before its slides are appended). -/
def processContentLoop (fm : FreqModel) (settings : ReaderSettings) :
    List ContentBlock → ℕ → List CSlide × List ℕ
  | [], _ => ([], [])
  | block :: rest, acc =>
    let emitted : List CSlide :=
      match block.type with
      | ContentBlockType.code => [createBlockSlide block settings ContentBlockType.code]
      | ContentBlockType.table => [createBlockSlide block settings ContentBlockType.table]
      | ContentBlockType.heading => [createBlockSlide block settings ContentBlockType.heading]
      | ContentBlockType.image => [createBlockSlide block settings ContentBlockType.image]
      | ContentBlockType.hr => []
      | ContentBlockType.blockquote =>
        ((processText fm block.content settings).slides).map
          (fun s => { core := s, blockType := some ContentBlockType.blockquote, metadata := none })
      | ContentBlockType.list =>
        ((processText fm block.content settings).slides).map
          (fun s => { core := s, blockType := some ContentBlockType.list, metadata := block.metadata })
      | ContentBlockType.text =>
        ((processText fm block.content settings).slides).map
          (fun s => { core := s, blockType := none, metadata := none })
    let r := processContentLoop fm settings rest (acc + emitted.length)
    (emitted ++ r.1, acc :: r.2)

/-- The result record of `processContent` (index.ts). -/
structure ContentResult where
  slides : List CSlide
  stats : SlideShowData
  blockIndices : List ℕ
deriving DecidableEq, Repr

/-- `processContent` (index.ts). -/
def processContent (fm : FreqModel) (content : ParsedContent)
    (settings : ReaderSettings) : ContentResult :=
  let r := processContentLoop fm settings content.blocks 0
  { slides := r.1
    stats := calculateSlideShowData (r.1.map (·.core)) settings
    blockIndices := r.2 }

/-- `TextChunk` (chunked-processor.ts). -/
structure TextChunk where
  startChar : ℕ
  endChar : ℕ
  text : Str
  processed : Bool
  slides : List TextSlide
  slideStartIndex : ℕ
deriving DecidableEq, Repr

/-- The boundary pull-back loop of `createChunkedProcessor`:
`while (endIndex > charIndex && !/\s/.test(text[endIndex])) endIndex--`. -/
def pullBack (text : Str) (charIndex : ℕ) : ℕ → ℕ
  | 0 => 0
  | e + 1 =>
    if charIndex < e + 1 &&
        !(match text[e + 1]? with
          | some c => jsSpace c
          | none => false) then
      pullBack text charIndex e
    else e + 1

/-- The chunk-partition loop of `createChunkedProcessor`: cut at most
`chunkSize` characters, pull the cut back to the nearest preceding
whitespace boundary, and fall back to the hard cut when none exists.
Fuel-structural; each round advances `charIndex` by at least one when
`chunkSize ≥ 1`, so fuel `text.length` suffices. -/
def buildChunksAux (text : Str) (chunkSize : ℕ) : ℕ → ℕ → List TextChunk
  | 0, _ => []
  | fuel + 1, charIndex =>
    if charIndex < text.length then
      let e0 := min (charIndex + chunkSize) text.length
      let e1 := if e0 < text.length then pullBack text charIndex e0 else e0
      let endIndex := if e1 = charIndex then min (charIndex + chunkSize) text.length else e1
      { startChar := charIndex
        endChar := endIndex
        text := (text.drop charIndex).take (endIndex - charIndex)
        processed := false
        slides := []
        slideStartIndex := 0 } :: buildChunksAux text chunkSize fuel endIndex
    else []

/-- The chunk partition built at the top of `createChunkedProcessor`. -/
def buildChunks (text : Str) (chunkSize : ℕ) : List TextChunk :=
  buildChunksAux text chunkSize text.length 0

/-- The mutable state captured by the closures of `createChunkedProcessor`.
`allSlides` is not stored: `rebuildSlidesArray` keeps it equal to the
concatenation of the processed chunks' slides, so we define it as that
concatenation. -/
structure ProcState where
  settings : ReaderSettings
  chunks : List TextChunk
  totalProcessedSlides : ℕ
  currentChunkIndex : ℕ
  estimatedTotalSlides : ℕ
deriving Repr

/-- The flat slide array maintained by `rebuildSlidesArray`: the ordered
concatenation of all processed chunks' slides. -/
def allSlides (st : ProcState) : List TextSlide :=
  (st.chunks.filter (·.processed)).flatMap (·.slides)

/-- Renumbering applied by `processChunk`:
`chunkSlides[i].slideNumber = totalProcessedSlides + i + 1`. -/
def renumberFrom (base : ℕ) : ℕ → List TextSlide → List TextSlide
  | _, [] => []
  | i, s :: rest => { s with slideNumber := base + i + 1 } :: renumberFrom base (i + 1) rest

/-- `processChunk` (chunked-processor.ts): tokenize and time one chunk in
isolation, renumber its slides to continue the global running count, mark it
processed and account its slides. -/
def processChunkSt (fm : FreqModel) (chunkIndex : ℕ) (st : ProcState) : ProcState :=
  match st.chunks[chunkIndex]? with
  | none => st
  | some chunk =>
    if chunk.processed then st
    else
      let chunkSlides :=
        applyTiming fm (tokenizeText chunk.text st.settings) st.settings
      let renumbered := renumberFrom st.totalProcessedSlides 0 chunkSlides
      { st with
          chunks := st.chunks.set chunkIndex
            { chunk with
                slideStartIndex := st.totalProcessedSlides
                slides := renumbered
                processed := true }
          totalProcessedSlides := st.totalProcessedSlides + renumbered.length }

/-- `processMore` (chunked-processor.ts): process the chunk at the cursor
(if any), advance the cursor, and report whether any chunk position remains
beyond the new cursor. -/
def processMoreSt (fm : FreqModel) (st : ProcState) : Bool × ProcState :=
  if st.chunks.length ≤ st.currentChunkIndex then (false, st)
  else
    let st' := { processChunkSt fm st.currentChunkIndex st with
                   currentChunkIndex := st.currentChunkIndex + 1 }
    (decide (st'.currentChunkIndex < st'.chunks.length), st')

/-- The `while` loop of `processAll`, fuel-structural (the cursor advances
by one per round, so fuel `chunks.length` suffices). -/
def processAllAux (fm : FreqModel) : ℕ → ProcState → ProcState
  | 0, st => st
  | fuel + 1, st =>
    if st.currentChunkIndex < st.chunks.length then
      processAllAux fm fuel
        { processChunkSt fm st.currentChunkIndex st with
            currentChunkIndex := st.currentChunkIndex + 1 }
    else st

/-- `processAll` (chunked-processor.ts). -/
def processAllSt (fm : FreqModel) (st : ProcState) : ProcState :=
  processAllAux fm st.chunks.length st

/-- The chunk scan of `ensureSlidesProcessed`: walk the chunks in order
keeping a running slide count (actual counts for processed chunks, the
density estimate `⌈size · |allSlides| / chunk0.endChar⌉` — or 100 when that
is zero — for unprocessed ones), process every unprocessed chunk whose
estimated range could overlap `[startIndex, endIndex)`, and stop early once
the running count passes `endIndex + 500` (the processed-chunk `continue`
skips that stop test). -/
def ensureLoopAux (fm : FreqModel) (startIndex endIndex : ℕ) :
    ℕ → ℕ → ℕ → ProcState → ProcState
  | 0, _, _, st => st
  | fuel + 1, i, slideCount, st =>
    match st.chunks[i]? with
    | none => st
    | some chunk =>
      if chunk.processed then
        ensureLoopAux fm startIndex endIndex fuel (i + 1)
          (slideCount + chunk.slides.length) st
      else
        let d : ℕ :=
          match st.chunks[0]? with
          | some c0 => if c0.endChar = 0 then 1 else c0.endChar
          | none => 1
        let e := ceilDivNat ((chunk.endChar - chunk.startChar) * (allSlides st).length) d
        let estimatedChunkSlides := if e = 0 then 100 else e
        if startIndex ≤ slideCount + estimatedChunkSlides ∧ slideCount < endIndex then
          let st' := processChunkSt fm i st
          let newCount := slideCount +
            (match st'.chunks[i]? with
             | some c => c.slides.length
             | none => 0)
          if endIndex + 500 < newCount then st'
          else ensureLoopAux fm startIndex endIndex fuel (i + 1) newCount st'
        else
          let newCount := slideCount + estimatedChunkSlides
          if endIndex + 500 < newCount then st
          else ensureLoopAux fm startIndex endIndex fuel (i + 1) newCount st

/-- `ensureSlidesProcessed` (chunked-processor.ts). -/
def ensureSlidesProcessed (fm : FreqModel) (startIndex count : ℕ)
    (st : ProcState) : ProcState :=
  ensureLoopAux fm startIndex (startIndex + count) st.chunks.length 0 0 st

/-- The `isFullyProcessed` getter. -/
def isFullyProcessedSt (st : ProcState) : Bool :=
  st.chunks.all (·.processed)

/-- The `totalEstimatedSlides` getter: exact once every chunk is processed,
otherwise the stored estimate. -/
def totalEstimatedSlidesSt (st : ProcState) : ℕ :=
  if isFullyProcessedSt st then (allSlides st).length else st.estimatedTotalSlides

/-- The `processedSlidesCount` getter. -/
def processedSlidesCountSt (st : ProcState) : ℕ :=
  (allSlides st).length

/-- `getSlides` (chunked-processor.ts): ensure the range is processed, then
slice the flat slide array; returns the slice and the updated state. -/
def getSlidesSt (fm : FreqModel) (startIndex count : ℕ) (st : ProcState) :
    List TextSlide × ProcState :=
  let st' := ensureSlidesProcessed fm startIndex count st
  (((allSlides st').drop startIndex).take count, st')

/-- `getSlide` (chunked-processor.ts). -/
def getSlideSt (fm : FreqModel) (index : ℕ) (st : ProcState) :
    Option TextSlide × ProcState :=
  let st' := ensureSlidesProcessed fm index 1 st
  ((allSlides st')[index]?, st')

/-- `getStats` (chunked-processor.ts): stats over the currently known
slides only. -/
def getStatsSt (st : ProcState) : SlideShowData :=
  calculateSlideShowData (allSlides st) st.settings

/-- `createChunkedProcessor` (chunked-processor.ts): partition, process the
whole small input (≤ 2 chunks) or only chunk 0, then refine the total-slide
estimate from chunk 0's slides-per-character density. -/
def createChunkedProcessor (fm : FreqModel) (text : Str)
    (settings : ReaderSettings) (chunkSize : ℕ := 10000) : ProcState :=
  let chunks := buildChunks text chunkSize
  let wordCount := (jsSplitWS text).length
  let st0 : ProcState :=
    { settings := settings
      chunks := chunks
      totalProcessedSlides := 0
      currentChunkIndex := 0
      estimatedTotalSlides := ceilDivNat wordCount settings.chunkSize }
  let st1 :=
    if chunks.length ≤ 2 then
      { (List.range chunks.length).foldl (fun s i => processChunkSt fm i s) st0 with
          currentChunkIndex := chunks.length }
    else
      { processChunkSt fm 0 st0 with currentChunkIndex := 1 }
  match st1.chunks[0]? with
  | some c0 =>
    if c0.processed then
      { st1 with
          estimatedTotalSlides :=
            ceilDivNat (text.length * c0.slides.length) (c0.endChar - c0.startChar) }
    else st1
  | none => st1

/-- The states of one chunked processor reachable through its public
operations (`processMore`, `processAll`, and the `ensureSlidesProcessed`
performed by `getSlides` / `getSlide`). -/
inductive Reachable (fm : FreqModel) (text : Str) (settings : ReaderSettings)
    (chunkSize : ℕ) : ProcState → Prop where
  | init : Reachable fm text settings chunkSize
      (createChunkedProcessor fm text settings chunkSize)
  | more {st : ProcState} : Reachable fm text settings chunkSize st →
      Reachable fm text settings chunkSize (processMoreSt fm st).2
  | drain {st : ProcState} : Reachable fm text settings chunkSize st →
      Reachable fm text settings chunkSize (processAllSt fm st)
  | ensure {st : ProcState} (startIndex count : ℕ) :
      Reachable fm text settings chunkSize st →
      Reachable fm text settings chunkSize (ensureSlidesProcessed fm startIndex count st)

/-- A concrete instantiation of the abstract word-frequency collaborator,
used for concrete evaluations. -/
def trivFreq : FreqModel where
  infoLow := 0
  infoHigh := 20
  wordInfo := fun _ => 10

/-- A sample slide used to instantiate universally quantified theorems. -/
def sampleSlide : TextSlide where
  text := ['h', 'i']
  textOriginal := ['h', 'i']
  duration := 0
  preDelay := 0
  postDelay := 0
  wpm := 300
  optimalLetterPosition := 2
  pixelOffset := 0
  slideNumber := 1
  wordsInSlide := 1
  isChildOfPrevious := false
  hasBeenReversed := false

/-- A 25-character single word (no vowels, no hyphens). -/
def longWordB : Str := List.replicate 25 'b'

/-- A 25-character single word of `'a'`s. -/
def longWordA : Str := List.replicate 25 'a'

/-- Text whose chunk 0 is sparse (one 9-character word) and whose tail is
dense, for a processor chunk budget of 10 characters. -/
def denseTailText : Str :=
  ('z' :: 'z' :: 'z' :: 'z' :: 'z' :: 'z' :: 'z' :: 'z' :: 'z' :: []) ++
    (' ' :: 'a' :: ' ' :: 'b' :: ' ' :: 'c' :: ' ' :: 'd' :: ' ' :: 'e' :: []) ++
    (' ' :: 'f' :: ' ' :: 'g' :: ' ' :: 'h' :: ' ' :: 'i' :: ' ' :: 'j' :: []) ++
    (' ' :: 'k' :: ' ' :: 'l' :: [])

/-- Text whose chunk 0 is dense and whose tail is sparse, for a processor
chunk budget of 10 characters. -/
def sparseTailText : Str :=
  ('a' :: ' ' :: 'b' :: ' ' :: 'c' :: ' ' :: 'd' :: ' ' :: 'e' :: ' ' ::
   'f' :: ' ' :: 'g' :: ' ' :: 'h' :: []) ++
    (' ' :: List.replicate 16 'z') ++ (' ' :: List.replicate 16 'z')

/-- Nine single-letter words, for a processor chunk budget of 6 characters
(three chunks of three words each). -/
def nineWordText : Str :=
  ['a', ' ', 'b', ' ', 'c', ' ', 'd', ' ', 'e', ' ', 'f', ' ', 'g', ' ',
   'h', ' ', 'i']

/-- The `denseTailText` processor after construction and one `processMore`:
its processed count has overtaken the frozen estimate. -/
def estOvertakenSt : ProcState :=
  (processMoreSt trivFreq
    (createChunkedProcessor trivFreq denseTailText DEFAULT_SETTINGS 10)).2

/-- The `sparseTailText` processor after construction and four
`processMore` calls: one chunk left, estimate still high. -/
def estHighSt : ProcState :=
  (processMoreSt trivFreq (processMoreSt trivFreq (processMoreSt trivFreq
    (processMoreSt trivFreq
      (createChunkedProcessor trivFreq sparseTailText DEFAULT_SETTINGS 10)).2).2).2).2

/-- The `nineWordText` processor after a `getSlides(0, 9)` read: every
chunk is processed but the `processMore` cursor is still at 1. -/
def aheadOfCursorSt : ProcState :=
  ensureSlidesProcessed trivFreq 0 9
    (createChunkedProcessor trivFreq nineWordText DEFAULT_SETTINGS 6)

/-- The `nineWordText` processor after a `getSlide(8)` read (which skips
chunk 1 but processes chunk 2) followed by one `processMore` (which then
processes chunk 1): every chunk is processed, out of document order. -/
def outOfOrderSt : ProcState :=
  (processMoreSt trivFreq
    (ensureSlidesProcessed trivFreq 8 1
      (createChunkedProcessor trivFreq nineWordText DEFAULT_SETTINGS 6))).2

/-- A heading-only content input. -/
def headingContent : ParsedContent where
  blocks := [{ type := ContentBlockType.heading, content := ['h', 'i'], metadata := none }]
  title := none
  source := none

/-- The total word count of a slide list (the `totalWords` accumulator of
`calculateSlideShowData`). -/
def totalWordsOf (slides : List TextSlide) : ℕ :=
  (slides.map (·.wordsInSlide)).sum

/-- The total duration of a slide list (the `totalDuration` accumulator of
`calculateSlideShowData`). -/
def totalDurationOf (slides : List TextSlide) : ℚ :=
  (slides.map (·.duration)).sum

/-- Well-formedness of a chunk list starting at character `ci`: each chunk
starts where the previous one ended, covers a non-empty in-range character
interval whose substring is its text, and the list ends exactly at the end
of the text. -/
def ChunkChain (text : Str) : ℕ → List TextChunk → Prop
  | ci, [] => ci = text.length
  | ci, c :: rest =>
    c.startChar = ci ∧ ci < c.endChar ∧ c.endChar ≤ text.length ∧
      c.text = (text.drop c.startChar).take (c.endChar - c.startChar) ∧
      ChunkChain text c.endChar rest

/-- "The last slide (if any) carries no post-delay." -/
def GoodLast (l : List TextSlide) : Prop :=
  (l.getLast?.map (·.postDelay)).getD 0 = 0

/-- The per-chunk `GoodLast` invariant of a processor state. -/
def ChunksGoodLast (st : ProcState) : Prop :=
  ∀ c ∈ st.chunks, c.processed = true → GoodLast c.slides

/-- A fully processed single-chunk processor over the text `"hi"`. -/
def tinyProcessorSt : ProcState :=
  createChunkedProcessor trivFreq ['h', 'i'] DEFAULT_SETTINGS 10000

/-- "The chunk at index `j` (if any) is processed." -/
def ProcessedAt (st : ProcState) (j : ℕ) : Prop :=
  ∀ c, st.chunks[j]? = some c → c.processed = true

/-- Every chunk strictly before the `processMore` cursor is processed. -/
def PrefixProcessed (st : ProcState) : Prop :=
  ∀ j, j < st.currentChunkIndex → ProcessedAt st j

/-- The running-total invariant of a processor state. -/
def CountInv (st : ProcState) : Prop :=
  (allSlides st).length = st.totalProcessedSlides

/-- The numbering-relevant projection of a slide. -/
def numFlag (s : TextSlide) : ℕ × Bool :=
  (s.slideNumber, s.isChildOfPrevious)

/-- The successor relation produced by `tokenizeText`'s numbering loop:
each slide's number is its predecessor's number, plus one when the
predecessor is not a continuation. -/
def numStep (a b : TextSlide) : Prop :=
  b.slideNumber = if a.isChildOfPrevious = true then a.slideNumber
    else a.slideNumber + 1

/-- A three-part hyphenated word (18 characters). -/
def hyphenWord : Str :=
  ['o', 'n', 'e', '-', 't', 'w', 'o', '-', 't', 'h', 'r', 'e', 'e', '-',
   'f', 'o', 'u', 'r']

/-- A character that the tokenizer treats as plain word material: not
whitespace, not pause punctuation, not an HTML-entity ampersand, not a
hyphen, and alphanumeric (e.g. any lowercase letter). -/
def plainWordChar (c : Char) : Bool :=
  !jsSpace c && !punctChar c && c ≠ '&' && c ≠ '-' && c.isAlphanum

/-- The display texts of a long-word fragment run: a trailing hyphen on
every piece whose index is below `total - 1`. -/
def hyphenated (total : ℕ) : ℕ → List Str → List Str
  | _, [] => []
  | idx, p :: rest =>
    (if idx < total - 1 then p ++ ['-'] else p) :: hyphenated total (idx + 1) rest

/-- The minimum-duration clamp never goes below the floor. -/
theorem clampMin_ge (settings : ReaderSettings) (d : ℚ) :
    settings.minSlideDuration ≤ clampMin settings d := by
  unfold clampMin
  split
  · exact le_refl _
  · exact le_of_not_lt (by assumption)

/-- Claim C6: after `applyTiming` runs with any of the three algorithm
selections, every slide's duration is at least `settings.minSlideDuration`. -/
theorem C6_min_duration (fm : FreqModel) (slides : List TextSlide)
    (settings : ReaderSettings) :
    ∀ s ∈ applyTiming fm slides settings,
      settings.minSlideDuration ≤ s.duration := by
  intro s hs
  unfold applyTiming at hs
  rcases halg : settings.algorithm with _ | _ | _ <;> rw [halg] at hs
  · unfold applyBasicTiming at hs
    rcases List.mem_map.1 hs with ⟨a, _, rfl⟩
    exact clampMin_ge settings _
  · unfold applyWordLengthTiming at hs
    rcases List.mem_map.1 hs with ⟨a, _, rfl⟩
    exact clampMin_ge settings _
  · unfold applyWordFrequencyTiming at hs
    rcases List.mem_map.1 hs with ⟨a, _, rfl⟩
    exact clampMin_ge settings _

/-- Witness for C6 at a concrete slide list and the default settings. -/
theorem C6_min_duration_witness :
    DEFAULT_SETTINGS.minSlideDuration ≤
      (clampMin DEFAULT_SETTINGS (60 / DEFAULT_SETTINGS.wpm * 1000 *
        (sampleSlide.wordsInSlide : ℚ))) :=
  C6_min_duration trivFreq [sampleSlide] DEFAULT_SETTINGS
    { sampleSlide with
        duration := clampMin DEFAULT_SETTINGS (60 / DEFAULT_SETTINGS.wpm * 1000 *
          (sampleSlide.wordsInSlide : ℚ)) }
    (by simp [applyTiming, DEFAULT_SETTINGS, applyBasicTiming])

/-- Claim C7: `adjustTimingByWPM` multiplies every duration by exactly
`oldWpm / newWpm`, stamps every slide's stored WPM with `newWpm`, changes
nothing else, and in particular at `(300, 600)` halves every duration and
sets every stored WPM to 600. -/
theorem C7_rescale (slides : List TextSlide) (currentWPM newWPM : ℚ) :
    (adjustTimingByWPM slides currentWPM newWPM).map (·.duration) =
        slides.map (fun s => s.duration * (currentWPM / newWPM)) ∧
      (adjustTimingByWPM slides currentWPM newWPM).map (·.wpm) =
        slides.map (fun _ => newWPM) ∧
      (adjustTimingByWPM slides currentWPM newWPM).map
          (fun s => { s with duration := 0, wpm := 0 }) =
        slides.map (fun s => { s with duration := 0, wpm := 0 }) ∧
      (adjustTimingByWPM slides 300 600).map (·.duration) =
        slides.map (fun s => s.duration / 2) ∧
      (adjustTimingByWPM slides 300 600).map (·.wpm) =
        slides.map (fun _ => (600 : ℚ)) := by
  unfold adjustTimingByWPM
  refine ⟨?_, ?_, ?_, ?_, ?_⟩ <;> simp only [List.map_map] <;>
    refine List.map_congr_left (fun s _ => ?_)
  · rfl
  · rfl
  · rfl
  · show s.duration * (300 / 600) = s.duration / 2
    norm_num
    ring
  · rfl

/-- Claim C8, amended: `calculateSlideShowData` returns
`realWPM = round ((totalWords / totalDuration) * 60000)` when
`totalDuration > 0` and `round settings.wpm` when it is not — but only for
non-empty slide lists; the empty list takes the early-return branch, whose
`realWPM` is 0 rather than the configured WPM. -/
theorem C8_realWPM (slides : List TextSlide) (settings : ReaderSettings) :
    (slides = [] → (calculateSlideShowData slides settings).realWPM = 0) ∧
      (slides ≠ [] → (calculateSlideShowData slides settings).realWPM =
        round (if 0 < totalDurationOf slides
          then (totalWordsOf slides : ℚ) / totalDurationOf slides * 60000
          else settings.wpm)) := by
  constructor
  · rintro rfl
    rfl
  · intro h
    match slides with
    | [] => exact absurd rfl h
    | s0 :: rest => rfl

/-- Witness for C8 at a concrete empty and a concrete non-empty list. -/
theorem C8_realWPM_witness :
    (calculateSlideShowData [] DEFAULT_SETTINGS).realWPM = 0 ∧
      (calculateSlideShowData [sampleSlide] DEFAULT_SETTINGS).realWPM =
        round (if 0 < totalDurationOf [sampleSlide]
          then (totalWordsOf [sampleSlide] : ℚ) / totalDurationOf [sampleSlide] * 60000
          else DEFAULT_SETTINGS.wpm) :=
  ⟨(C8_realWPM [] DEFAULT_SETTINGS).1 rfl,
   (C8_realWPM [sampleSlide] DEFAULT_SETTINGS).2 (by simp)⟩

/-- Counterexample to claim C8 as stated: on the empty slide list the total
duration is 0, yet `realWPM` is 0, not the configured `settings.wpm`
(which is 300 in the default settings). -/
theorem C8_counterexample :
    (calculateSlideShowData [] DEFAULT_SETTINGS).totalDuration = 0 ∧
      (calculateSlideShowData [] DEFAULT_SETTINGS).realWPM = 0 ∧
      DEFAULT_SETTINGS.wpm = 300 ∧
      (calculateSlideShowData [] DEFAULT_SETTINGS).realWPM ≠ 300 := by
  refine ⟨rfl, rfl, rfl, ?_⟩
  decide

/-- The boundary pull-back never moves below `charIndex`. -/
theorem pullBack_ge (text : Str) (ci : ℕ) :
    ∀ e, ci ≤ e → ci ≤ pullBack text ci e := by
  intro e
  induction e with
  | zero => intro h; simpa [pullBack] using h
  | succ e ih =>
    intro h
    unfold pullBack
    split
    · rename_i hcond
      have h1 : ci < e + 1 := by
        have h2 := ((Bool.and_eq_true _ _).mp hcond).1
        simpa using h2
      exact ih (Nat.lt_succ_iff.mp h1)
    · exact h

/-- The boundary pull-back never moves the cut forward. -/
theorem pullBack_le (text : Str) (ci : ℕ) :
    ∀ e, pullBack text ci e ≤ e := by
  intro e
  induction e with
  | zero => simp [pullBack]
  | succ e ih =>
    unfold pullBack
    split
    · exact le_trans ih (Nat.le_succ e)
    · exact le_refl _

/-- The chunk-partition loop produces a well-formed chunk chain. -/
theorem buildChunksAux_chain (text : Str) (cs : ℕ) (hcs : 0 < cs) :
    ∀ fuel ci, ci ≤ text.length → text.length ≤ ci + fuel →
      ChunkChain text ci (buildChunksAux text cs fuel ci) := by
  intro fuel
  induction fuel with
  | zero =>
    intro ci h1 h2
    have : ci = text.length := le_antisymm h1 (by simpa using h2)
    simpa [buildChunksAux, ChunkChain] using this
  | succ fuel ih =>
    intro ci h1 h2
    unfold buildChunksAux
    split
    · rename_i hlt
      set e0 := min (ci + cs) text.length with he0
      set e1 := if e0 < text.length then pullBack text ci e0 else e0 with he1
      set endIndex := if e1 = ci then min (ci + cs) text.length else e1 with hend
      have he0ci : ci < e0 := by
        have : ci < ci + cs := Nat.lt_add_of_pos_right hcs
        exact lt_min this hlt
      have he0le : e0 ≤ text.length := min_le_right _ _
      have he1ci : ci ≤ e1 := by
        rw [he1]
        split
        · exact pullBack_ge text ci e0 (le_of_lt he0ci)
        · exact le_of_lt he0ci
      have he1le : e1 ≤ text.length := by
        rw [he1]
        split
        · exact le_trans (pullBack_le text ci e0) he0le
        · exact he0le
      have hendci : ci < endIndex := by
        rw [hend]
        split
        · have : ci < ci + cs := Nat.lt_add_of_pos_right hcs
          exact lt_min this hlt
        · rename_i hne
          exact lt_of_le_of_ne he1ci (fun h => hne h.symm)
      have hendle : endIndex ≤ text.length := by
        rw [hend]
        split
        · exact min_le_right _ _
        · exact he1le
      refine ⟨rfl, hendci, hendle, rfl, ?_⟩
      exact ih endIndex hendle (by omega)
    · rename_i hge
      have : ci = text.length := le_antisymm h1 (le_of_not_lt hge)
      simpa [ChunkChain] using this

/-- `buildChunks` produces a well-formed chunk chain from position 0. -/
theorem buildChunks_chain (text : Str) (cs : ℕ) (hcs : 0 < cs) :
    ChunkChain text 0 (buildChunks text cs) :=
  buildChunksAux_chain text cs hcs text.length 0 (Nat.zero_le _) (by omega)

/-- A well-formed chunk chain's texts concatenate to the remaining text. -/
theorem ChunkChain.flatten_texts (text : Str) :
    ∀ (l : List TextChunk) (ci : ℕ), ChunkChain text ci l →
      (l.map (·.text)).flatten = text.drop ci := by
  intro l
  induction l with
  | nil =>
    intro ci h
    have hci : ci = text.length := h
    simp [hci, List.drop_of_length_le]
  | cons c rest ih =>
    intro ci h
    obtain ⟨hs, hlt, hle, htext, hchain⟩ := h
    have ihr := ih c.endChar hchain
    simp only [List.map_cons, List.flatten_cons, ihr, htext, hs]
    have : ci + (c.endChar - ci) = c.endChar := by omega
    calc (text.drop ci).take (c.endChar - ci) ++ text.drop c.endChar
        = (text.drop ci).take (c.endChar - ci) ++ text.drop (ci + (c.endChar - ci)) := by
          rw [this]
      _ = (text.drop ci).take (c.endChar - ci) ++ (text.drop ci).drop (c.endChar - ci) := by
          rw [List.drop_drop]
      _ = text.drop ci := List.take_append_drop _ _

/-- A well-formed chunk chain is contiguous. -/
theorem ChunkChain.contiguous (text : Str) :
    ∀ (l : List TextChunk) (ci : ℕ), ChunkChain text ci l →
      l.Chain' (fun a b => a.endChar = b.startChar) := by
  intro l
  induction l with
  | nil => intro _ _; exact List.chain'_nil
  | cons c rest ih =>
    intro ci h
    obtain ⟨hs, hlt, hle, htext, hchain⟩ := h
    refine List.chain'_cons'.2 ⟨?_, ih c.endChar hchain⟩
    intro d hd
    match rest, hchain, hd with
    | d' :: rest', hchain', hd' =>
      obtain ⟨hs', _, _, _, _⟩ := hchain'
      have hdd : d' = d := by simpa using hd'
      rw [← hdd, hs']

/-- Every chunk of a well-formed chain covers a non-empty in-range interval
whose substring is its (non-empty) text. -/
theorem ChunkChain.chunk_bounds (text : Str) :
    ∀ (l : List TextChunk) (ci : ℕ), ChunkChain text ci l →
      ∀ c ∈ l, c.startChar < c.endChar ∧ c.endChar ≤ text.length ∧
        c.text = (text.drop c.startChar).take (c.endChar - c.startChar) ∧
        c.text ≠ [] := by
  intro l
  induction l with
  | nil => intro _ _ c hc; exact absurd hc (List.not_mem_nil c)
  | cons c0 rest ih =>
    intro ci h c hc
    obtain ⟨hs, hlt, hle, htext, hchain⟩ := h
    rcases List.mem_cons.1 hc with rfl | hmem
    · refine ⟨hs ▸ hlt, hle, htext, ?_⟩
      intro hnil
      have hlen : c.text.length = 0 := by rw [hnil]; rfl
      rw [htext] at hlen
      simp [List.length_take, List.length_drop] at hlen
      omega
    · exact ih c0.endChar hchain c hmem

/-- A non-empty well-formed chain starts at `ci`. -/
theorem ChunkChain.head_start (text : Str) (l : List TextChunk) (ci : ℕ)
    (h : ChunkChain text ci l) (hne : l ≠ []) :
    l.head?.map (·.startChar) = some ci := by
  match l, h, hne with
  | c :: rest, h', _ => simp [h'.1]

/-- A non-empty well-formed chain ends at the end of the text. -/
theorem ChunkChain.last_end (text : Str) :
    ∀ (l : List TextChunk) (ci : ℕ), ChunkChain text ci l → l ≠ [] →
      l.getLast?.map (·.endChar) = some text.length := by
  intro l
  induction l with
  | nil => intro _ _ hne; exact absurd rfl hne
  | cons c rest ih =>
    intro ci h _
    obtain ⟨hs, hlt, hle, htext, hchain⟩ := h
    match rest, hchain with
    | [], hchain' =>
      have : c.endChar = text.length := hchain'
      simp [this]
    | d :: rest', hchain' =>
      rw [List.getLast?_cons_cons]
      exact ih c.endChar hchain' (by simp)

/-- Claim C10: for every text and positive chunk-size budget, the chunk
list built by `createChunkedProcessor` partitions the text: chunks are
contiguous, the first starts at 0 and the last ends at `text.length`, every
chunk's text is the non-empty substring of its character range, and the
chunk texts concatenate to the input text. -/
theorem C10_chunk_partition (text : Str) (cs : ℕ) (hcs : 0 < cs) :
    ((buildChunks text cs).map (·.text)).flatten = text ∧
      (buildChunks text cs).Chain' (fun a b => a.endChar = b.startChar) ∧
      (∀ c ∈ buildChunks text cs,
        c.startChar < c.endChar ∧ c.endChar ≤ text.length ∧
        c.text = (text.drop c.startChar).take (c.endChar - c.startChar) ∧
        c.text ≠ []) ∧
      (text ≠ [] → (buildChunks text cs).head?.map (·.startChar) = some 0) ∧
      (text ≠ [] → (buildChunks text cs).getLast?.map (·.endChar) =
        some text.length) := by
  have hchain := buildChunks_chain text cs hcs
  have hne : text ≠ [] → buildChunks text cs ≠ [] := by
    intro ht hl
    have h0 : (0 : ℕ) = text.length := by
      have := hchain
      rw [hl] at this
      exact this
    exact ht (List.eq_nil_of_length_eq_zero h0.symm)
  refine ⟨?_, ChunkChain.contiguous text _ 0 hchain,
    ChunkChain.chunk_bounds text _ 0 hchain, ?_, ?_⟩
  · simpa using ChunkChain.flatten_texts text _ 0 hchain
  · intro ht
    exact ChunkChain.head_start text _ 0 hchain (hne ht)
  · intro ht
    exact ChunkChain.last_end text _ 0 hchain (hne ht)

/-- Witness for C10 on the concrete text `"a b"` with budget 2. -/
theorem C10_chunk_partition_witness :
    ((buildChunks ['a', ' ', 'b'] 2).map (·.text)).flatten = ['a', ' ', 'b'] ∧
      (buildChunks ['a', ' ', 'b'] 2).head?.map (·.startChar) = some 0 ∧
      (buildChunks ['a', ' ', 'b'] 2).getLast?.map (·.endChar) = some 3 :=
  ⟨(C10_chunk_partition ['a', ' ', 'b'] 2 (by decide)).1,
   (C10_chunk_partition ['a', ' ', 'b'] 2 (by decide)).2.2.2.1 (by decide),
   (C10_chunk_partition ['a', ' ', 'b'] 2 (by decide)).2.2.2.2 (by decide)⟩

/-- `zeroLastPostDelay` establishes `GoodLast`. -/
theorem zeroLastPostDelay_goodLast : ∀ l : List TextSlide,
    GoodLast (zeroLastPostDelay l) := by
  intro l
  match l with
  | [] => rfl
  | [s] => rfl
  | s :: t :: rest =>
    have ih := zeroLastPostDelay_goodLast (t :: rest)
    unfold GoodLast at ih ⊢
    have hshape : ∃ y ys, zeroLastPostDelay (t :: rest) = y :: ys := by
      match rest with
      | [] => exact ⟨_, _, rfl⟩
      | u :: us => exact ⟨_, _, rfl⟩
    obtain ⟨y, ys, hy⟩ := hshape
    show ((zeroLastPostDelay (s :: t :: rest)).getLast?.map (·.postDelay)).getD 0 = 0
    have : zeroLastPostDelay (s :: t :: rest) = s :: zeroLastPostDelay (t :: rest) := rfl
    rw [this, hy, List.getLast?_cons_cons, ← hy]
    exact ih

/-- `tokenizeText` output always satisfies `GoodLast`. -/
theorem tokenizeText_goodLast (text : Str) (settings : ReaderSettings) :
    GoodLast (tokenizeText text settings) :=
  zeroLastPostDelay_goodLast _

/-- All three timing algorithms leave the post-delays unchanged. -/
theorem applyTiming_postDelay (fm : FreqModel) (slides : List TextSlide)
    (settings : ReaderSettings) :
    (applyTiming fm slides settings).map (·.postDelay) =
      slides.map (·.postDelay) := by
  unfold applyTiming
  rcases settings.algorithm with _ | _ | _ <;>
    simp only [applyBasicTiming, applyWordLengthTiming, applyWordFrequencyTiming,
      List.map_map] <;>
    exact List.map_congr_left (fun s _ => rfl)

/-- `GoodLast` transfers along any postDelay-preserving transformation. -/
theorem GoodLast.of_map_postDelay {l₁ l₂ : List TextSlide}
    (h : l₂.map (·.postDelay) = l₁.map (·.postDelay)) (hg : GoodLast l₁) :
    GoodLast l₂ := by
  unfold GoodLast at hg ⊢
  have h₂ := List.getLast?_map (·.postDelay : TextSlide → ℚ) l₂
  have h₁ := List.getLast?_map (·.postDelay : TextSlide → ℚ) l₁
  rw [← h₂, h, h₁]
  exact hg

/-- `processText` output always satisfies `GoodLast`. -/
theorem processText_goodLast (fm : FreqModel) (text : Str)
    (settings : ReaderSettings) : GoodLast (processText fm text settings).slides :=
  GoodLast.of_map_postDelay (applyTiming_postDelay fm (tokenizeText text settings) settings)
    (tokenizeText_goodLast text settings)

/-- `renumberFrom` leaves the post-delays unchanged. -/
theorem renumberFrom_postDelay (base : ℕ) :
    ∀ (i : ℕ) (l : List TextSlide),
      (renumberFrom base i l).map (·.postDelay) = l.map (·.postDelay) := by
  intro i l
  induction l generalizing i with
  | nil => rfl
  | cons s rest ih => simp [renumberFrom, ih]

/-- The slides attached to a freshly processed chunk satisfy `GoodLast`. -/
theorem processedChunkSlides_goodLast (fm : FreqModel) (base : ℕ) (text : Str)
    (settings : ReaderSettings) :
    GoodLast (renumberFrom base 0
      (applyTiming fm (tokenizeText text settings) settings)) :=
  GoodLast.of_map_postDelay (renumberFrom_postDelay base 0 _)
    (processText_goodLast fm text settings)

/-- A flattened list of `GoodLast` lists is `GoodLast`. -/
theorem GoodLast.flatten : ∀ ls : List (List TextSlide),
    (∀ l ∈ ls, GoodLast l) → GoodLast ls.flatten := by
  intro ls
  induction ls with
  | nil => intro _; rfl
  | cons l rest ih =>
    intro h
    have hrest : GoodLast rest.flatten := ih (fun x hx => h x (List.mem_cons_of_mem l hx))
    have hl : GoodLast l := h l (List.mem_cons_self l rest)
    show GoodLast (l ++ rest.flatten)
    by_cases hflat : rest.flatten = []
    · rw [hflat, List.append_nil]
      exact hl
    · unfold GoodLast
      rw [List.getLast?_append_of_ne_nil l hflat]
      exact hrest

/-- `processChunk` preserves the per-chunk `GoodLast` invariant. -/
theorem processChunkSt_goodLast (fm : FreqModel) (i : ℕ) (st : ProcState)
    (h : ChunksGoodLast st) : ChunksGoodLast (processChunkSt fm i st) := by
  unfold processChunkSt
  split
  · exact h
  · rename_i chunk hsome
    split
    · exact h
    · intro c hc hproc
      rcases List.mem_or_eq_of_mem_set hc with hmem | rfl
      · exact h c hmem hproc
      · exact processedChunkSlides_goodLast fm st.totalProcessedSlides chunk.text st.settings

/-- Any state whose chunks all satisfy the invariant has a `GoodLast` flat
slide array. -/
theorem allSlides_goodLast (st : ProcState) (h : ChunksGoodLast st) :
    GoodLast (allSlides st) := by
  unfold allSlides
  rw [List.flatMap_def]
  refine GoodLast.flatten _ ?_
  intro l hl
  rcases List.mem_map.1 hl with ⟨c, hc, rfl⟩
  exact h c (List.mem_of_mem_filter hc) (by simpa using List.of_mem_filter hc)

/-- Freshly built chunks are unprocessed. -/
theorem buildChunksAux_unprocessed (text : Str) (cs : ℕ) :
    ∀ fuel ci c, c ∈ buildChunksAux text cs fuel ci → c.processed = false := by
  intro fuel
  induction fuel with
  | zero => intro ci c hc; simp [buildChunksAux] at hc
  | succ fuel ih =>
    intro ci c hc
    unfold buildChunksAux at hc
    split at hc
    · rcases List.mem_cons.1 hc with rfl | hmem
      · rfl
      · exact ih _ c hmem
    · simp at hc

/-- `processChunk` iterated by `foldl` preserves the invariant. -/
theorem foldl_processChunkSt_goodLast (fm : FreqModel) :
    ∀ (l : List ℕ) (st : ProcState), ChunksGoodLast st →
      ChunksGoodLast (l.foldl (fun s i => processChunkSt fm i s) st) := by
  intro l
  induction l with
  | nil => intro st h; exact h
  | cons i rest ih =>
    intro st h
    exact ih _ (processChunkSt_goodLast fm i st h)

/-- States whose chunks are all unprocessed satisfy the invariant. -/
theorem chunksGoodLast_of_unprocessed (st : ProcState)
    (hst : ∀ c ∈ st.chunks, c.processed = false) : ChunksGoodLast st := by
  intro c hc hproc
  rw [hst c hc] at hproc
  cases hproc

/-- The invariant holds at construction. -/
theorem createChunkedProcessor_goodLast (fm : FreqModel) (text : Str)
    (settings : ReaderSettings) (cs : ℕ) :
    ChunksGoodLast (createChunkedProcessor fm text settings cs) := by
  unfold createChunkedProcessor
  dsimp only
  have h0 : ChunksGoodLast
      { settings := settings
        chunks := buildChunks text cs
        totalProcessedSlides := 0
        currentChunkIndex := 0
        estimatedTotalSlides := ceilDivNat (jsSplitWS text).length settings.chunkSize } :=
    chunksGoodLast_of_unprocessed _
      (fun c hc => buildChunksAux_unprocessed text cs text.length 0 c hc)
  repeat' split
  all_goals
    first
      | exact foldl_processChunkSt_goodLast fm _ _ h0
      | exact processChunkSt_goodLast fm 0 _ h0

/-- `processMore` preserves the invariant. -/
theorem processMoreSt_goodLast (fm : FreqModel) (st : ProcState)
    (h : ChunksGoodLast st) : ChunksGoodLast (processMoreSt fm st).2 := by
  unfold processMoreSt
  split
  · exact h
  · exact processChunkSt_goodLast fm st.currentChunkIndex st h

/-- `processAll` preserves the invariant. -/
theorem processAllAux_goodLast (fm : FreqModel) :
    ∀ (fuel : ℕ) (st : ProcState), ChunksGoodLast st →
      ChunksGoodLast (processAllAux fm fuel st) := by
  intro fuel
  induction fuel with
  | zero => intro st h; exact h
  | succ fuel ih =>
    intro st h
    unfold processAllAux
    split
    · exact ih _ (processChunkSt_goodLast fm st.currentChunkIndex st h)
    · exact h

/-- The `ensureSlidesProcessed` scan preserves the invariant. -/
theorem ensureLoopAux_goodLast (fm : FreqModel) (startIndex endIndex : ℕ) :
    ∀ (fuel i sc : ℕ) (st : ProcState), ChunksGoodLast st →
      ChunksGoodLast (ensureLoopAux fm startIndex endIndex fuel i sc st) := by
  intro fuel
  induction fuel with
  | zero => intro _ _ st h; exact h
  | succ fuel ih =>
    intro i sc st h
    unfold ensureLoopAux
    dsimp only
    repeat' split
    all_goals
      first
        | exact h
        | exact processChunkSt_goodLast fm i st h
        | exact ih _ _ _ h
        | exact ih _ _ _ (processChunkSt_goodLast fm i st h)

/-- Every reachable state of a chunked processor satisfies the per-chunk
`GoodLast` invariant. -/
theorem reachable_goodLast {fm : FreqModel} {text : Str}
    {settings : ReaderSettings} {cs : ℕ} {st : ProcState}
    (h : Reachable fm text settings cs st) : ChunksGoodLast st := by
  induction h with
  | init => exact createChunkedProcessor_goodLast fm text settings cs
  | more _ ih => exact processMoreSt_goodLast fm _ ih
  | drain _ ih => exact processAllAux_goodLast fm _ _ ih
  | ensure startIndex count _ ih => exact ensureLoopAux_goodLast fm _ _ _ _ _ _ ih

/-- Claim C3, amended: the final slide of `tokenizeText` / `processText`
output and of a fully processed chunked processor's flat slide array always
has `postDelay = 0`; but every `createBlockSlide` block slide (code, table,
heading, image) carries `postDelay = settings.pauseAfterParagraphDelay`, so
a `processContent` sequence ending in such a block ends with that delay
instead. -/
theorem C3_last_postDelay :
    (∀ (text : Str) (settings : ReaderSettings),
      GoodLast (tokenizeText text settings)) ∧
      (∀ (fm : FreqModel) (text : Str) (settings : ReaderSettings),
        GoodLast (processText fm text settings).slides) ∧
      (∀ (fm : FreqModel) (text : Str) (settings : ReaderSettings) (cs : ℕ)
        (st : ProcState), Reachable fm text settings cs st →
        isFullyProcessedSt st = true → GoodLast (allSlides st)) ∧
      (∀ (block : ContentBlock) (settings : ReaderSettings)
        (btype : ContentBlockType),
        (createBlockSlide block settings btype).core.postDelay =
          settings.pauseAfterParagraphDelay) :=
  ⟨fun text settings => tokenizeText_goodLast text settings,
   fun fm text settings => processText_goodLast fm text settings,
   fun _ _ _ _ _ h _ => allSlides_goodLast _ (reachable_goodLast h),
   fun _ _ _ => rfl⟩

/-- Witness for C3 on a concrete fully processed processor state. -/
theorem C3_last_postDelay_witness :
    GoodLast (allSlides tinyProcessorSt) ∧
      isFullyProcessedSt tinyProcessorSt = true :=
  ⟨C3_last_postDelay.2.2.1 trivFreq ['h', 'i'] DEFAULT_SETTINGS 10000
      tinyProcessorSt Reachable.init (by decide),
   by decide⟩

/-- Counterexample to claim C3 as stated: a `processContent` run over a
single heading block ends with a slide whose `postDelay` is the paragraph
delay (700 in the default settings), not 0. -/
theorem C3_counterexample :
    ((processContent trivFreq headingContent DEFAULT_SETTINGS).slides.getLast?.map
        (fun s => s.core.postDelay)).getD 0 = 700 ∧
      ((processContent trivFreq headingContent DEFAULT_SETTINGS).slides.getLast?.map
        (fun s => s.blockType)).getD none = some ContentBlockType.heading ∧
      (700 : ℚ) ≠ 0 := by
  refine ⟨rfl, rfl, ?_⟩
  norm_num

/-- `processChunk` does not change the number of chunks. -/
theorem processChunkSt_length (fm : FreqModel) (i : ℕ) (st : ProcState) :
    (processChunkSt fm i st).chunks.length = st.chunks.length := by
  unfold processChunkSt
  repeat' split
  all_goals simp

/-- `processChunk` does not move the `processMore` cursor. -/
theorem processChunkSt_cursor (fm : FreqModel) (i : ℕ) (st : ProcState) :
    (processChunkSt fm i st).currentChunkIndex = st.currentChunkIndex := by
  unfold processChunkSt
  repeat' split
  all_goals rfl

/-- Setting an existing index makes `getElem?` return the new value. -/
theorem getElem?_set_self_of_some {α : Type} {l : List α} {i : ℕ} {a b : α}
    (h : l[i]? = some a) : (l.set i b)[i]? = some b := by
  rw [List.getElem?_set_self', h]
  rfl

/-- After `processChunk i`, the chunk at `i` (if any) is processed. -/
theorem processChunkSt_processedAt_self (fm : FreqModel) (i : ℕ)
    (st : ProcState) : ProcessedAt (processChunkSt fm i st) i := by
  unfold processChunkSt
  split
  · rename_i hnone
    intro c hc
    rw [hnone] at hc
    cases hc
  · rename_i chunk hsome
    split
    · rename_i hproc
      intro c hc
      rw [hsome] at hc
      cases hc
      simpa using hproc
    · intro c hc
      dsimp only at hc
      rw [getElem?_set_self_of_some hsome] at hc
      cases hc
      rfl

/-- `processChunk` never un-processes a chunk. -/
theorem processChunkSt_mono (fm : FreqModel) (i j : ℕ) (st : ProcState)
    (h : ProcessedAt st j) : ProcessedAt (processChunkSt fm i st) j := by
  unfold processChunkSt
  split
  · exact h
  · rename_i chunk hsome
    split
    · exact h
    · intro c hc
      dsimp only at hc
      by_cases hij : i = j
      · subst hij
        rw [getElem?_set_self_of_some hsome] at hc
        cases hc
        rfl
      · rw [List.getElem?_set_ne hij] at hc
        exact h c hc

/-- The `ensureSlidesProcessed` scan never un-processes a chunk. -/
theorem ensureLoopAux_mono (fm : FreqModel) (s e : ℕ) :
    ∀ (fuel i sc : ℕ) (st : ProcState) (j : ℕ), ProcessedAt st j →
      ProcessedAt (ensureLoopAux fm s e fuel i sc st) j := by
  intro fuel
  induction fuel with
  | zero => intro _ _ st j h; exact h
  | succ fuel ih =>
    intro i sc st j h
    unfold ensureLoopAux
    dsimp only
    repeat' split
    all_goals
      first
        | exact h
        | exact processChunkSt_mono fm i j st h
        | exact ih _ _ _ _ h
        | exact ih _ _ _ _ (processChunkSt_mono fm i j st h)

/-- The `ensureSlidesProcessed` scan never moves the cursor. -/
theorem ensureLoopAux_cursor (fm : FreqModel) (s e : ℕ) :
    ∀ (fuel i sc : ℕ) (st : ProcState),
      (ensureLoopAux fm s e fuel i sc st).currentChunkIndex =
        st.currentChunkIndex := by
  intro fuel
  induction fuel with
  | zero => intro _ _ st; rfl
  | succ fuel ih =>
    intro i sc st
    unfold ensureLoopAux
    dsimp only
    repeat' split
    all_goals
      first
        | rfl
        | exact processChunkSt_cursor fm i st
        | exact ih _ _ _
        | exact (ih _ _ _).trans (processChunkSt_cursor fm i st)

/-- Iterating `processChunk` never un-processes a chunk. -/
theorem foldl_processChunkSt_mono (fm : FreqModel) :
    ∀ (l : List ℕ) (st : ProcState) (j : ℕ), ProcessedAt st j →
      ProcessedAt (l.foldl (fun s i => processChunkSt fm i s) st) j := by
  intro l
  induction l with
  | nil => intro st j h; exact h
  | cons i rest ih =>
    intro st j h
    exact ih _ j (processChunkSt_mono fm i j st h)

/-- After folding `processChunk` over a list of indices, every listed index
is processed. -/
theorem foldl_processChunkSt_processedAt (fm : FreqModel) :
    ∀ (l : List ℕ) (st : ProcState) (j : ℕ), j ∈ l →
      ProcessedAt (l.foldl (fun s i => processChunkSt fm i s) st) j := by
  intro l
  induction l with
  | nil => intro st j h; exact absurd h (List.not_mem_nil j)
  | cons i rest ih =>
    intro st j h
    rcases List.mem_cons.1 h with rfl | hmem
    · exact foldl_processChunkSt_mono fm rest _ j
        (processChunkSt_processedAt_self fm j st)
    · exact ih _ j hmem

/-- The prefix-processed invariant holds at construction. -/
theorem createChunkedProcessor_prefix (fm : FreqModel) (text : Str)
    (settings : ReaderSettings) (cs : ℕ) :
    PrefixProcessed (createChunkedProcessor fm text settings cs) := by
  unfold createChunkedProcessor
  dsimp only
  repeat' split
  all_goals intro j hj
  all_goals dsimp only at hj
  all_goals
    exact foldl_processChunkSt_processedAt fm _ _ j (List.mem_range.2 hj)

/-- `processMore` preserves the prefix-processed invariant. -/
theorem processMoreSt_prefix (fm : FreqModel) (st : ProcState)
    (h : PrefixProcessed st) : PrefixProcessed (processMoreSt fm st).2 := by
  unfold processMoreSt
  split
  · exact h
  · intro j hj
    dsimp only at hj
    rcases Nat.lt_succ_iff_lt_or_eq.1 hj with hlt | rfl
    · exact processChunkSt_mono fm st.currentChunkIndex j st (h j hlt)
    · exact processChunkSt_processedAt_self fm st.currentChunkIndex st

/-- `processAll` preserves the prefix-processed invariant. -/
theorem processAllAux_prefix (fm : FreqModel) :
    ∀ (fuel : ℕ) (st : ProcState), PrefixProcessed st →
      PrefixProcessed (processAllAux fm fuel st) := by
  intro fuel
  induction fuel with
  | zero => intro st h; exact h
  | succ fuel ih =>
    intro st h
    unfold processAllAux
    split
    · refine ih _ ?_
      intro j hj
      dsimp only at hj
      rcases Nat.lt_succ_iff_lt_or_eq.1 hj with hlt | rfl
      · exact processChunkSt_mono fm st.currentChunkIndex j st (h j hlt)
      · exact processChunkSt_processedAt_self fm st.currentChunkIndex st
    · exact h

/-- `ensureSlidesProcessed` preserves the prefix-processed invariant. -/
theorem ensureSlidesProcessed_prefix (fm : FreqModel) (a b : ℕ)
    (st : ProcState) (h : PrefixProcessed st) :
    PrefixProcessed (ensureSlidesProcessed fm a b st) := by
  intro j hj
  rw [show (ensureSlidesProcessed fm a b st).currentChunkIndex =
    st.currentChunkIndex from ensureLoopAux_cursor fm a (a + b) _ 0 0 st] at hj
  exact ensureLoopAux_mono fm a (a + b) _ 0 0 st j (h j hj)

/-- Every reachable state satisfies the prefix-processed invariant. -/
theorem reachable_prefix {fm : FreqModel} {text : Str}
    {settings : ReaderSettings} {cs : ℕ} {st : ProcState}
    (h : Reachable fm text settings cs st) : PrefixProcessed st := by
  induction h with
  | init => exact createChunkedProcessor_prefix fm text settings cs
  | more _ ih => exact processMoreSt_prefix fm _ ih
  | drain _ ih => exact processAllAux_prefix fm _ _ ih
  | ensure a b _ ih => exact ensureSlidesProcessed_prefix fm a b _ ih

/-- Every member of a list is reached by `getElem?` at some index. -/
theorem getElem?_of_mem' {α : Type} {l : List α} {a : α} (h : a ∈ l) :
    ∃ n : ℕ, l[n]? = some a := by
  obtain ⟨n, hn, rfl⟩ := List.getElem_of_mem h
  exact ⟨n, List.getElem?_eq_getElem hn⟩

/-- A state in which every chunk before the cursor is processed and whose
cursor has reached the chunk count is fully processed. -/
theorem fully_of_prefix (st : ProcState) (hpre : PrefixProcessed st)
    (hcur : st.chunks.length ≤ st.currentChunkIndex) :
    isFullyProcessedSt st = true := by
  unfold isFullyProcessedSt
  rw [List.all_eq_true]
  intro c hc
  obtain ⟨j, hj⟩ := getElem?_of_mem' hc
  have hlt : j < st.chunks.length := (List.getElem?_eq_some.1 hj).1
  exact hpre j (lt_of_lt_of_le hlt hcur) c hj

/-- Claim C5, amended: when `processMore()` returns `false`, no unprocessed
chunk remains after the call, and once it has returned `false` every further
call returns `false` without changing the state.  (The converse direction of
the "exactly when" fails: after random-access reads have processed chunks
ahead of the cursor, `processMore()` can return `true` on a fully processed
state.) -/
theorem C5_processMore (fm : FreqModel) (text : Str)
    (settings : ReaderSettings) (cs : ℕ) (st : ProcState)
    (h : Reachable fm text settings cs st) :
    ((processMoreSt fm st).1 = false →
      isFullyProcessedSt (processMoreSt fm st).2 = true) ∧
      ((processMoreSt fm st).1 = false →
        processMoreSt fm (processMoreSt fm st).2 = (false, (processMoreSt fm st).2)) := by
  have hpre := reachable_prefix h
  constructor
  · intro hfalse
    unfold processMoreSt at hfalse ⊢
    split at hfalse
    · rename_i hle
      rw [if_pos hle]
      exact fully_of_prefix st hpre hle
    · rename_i hgt
      rw [if_neg hgt]
      dsimp only at hfalse ⊢
      have hlen : (processChunkSt fm st.currentChunkIndex st).chunks.length =
        st.chunks.length := processChunkSt_length fm st.currentChunkIndex st
      have hcur : st.chunks.length ≤ st.currentChunkIndex + 1 := by
        have := of_decide_eq_false hfalse
        omega
      refine fully_of_prefix _ ?_ (by simpa [hlen] using hcur)
      intro j hj
      dsimp only at hj
      rcases Nat.lt_succ_iff_lt_or_eq.1 hj with hlt | rfl
      · exact processChunkSt_mono fm st.currentChunkIndex j st
          (hpre j (by omega))
      · exact processChunkSt_processedAt_self fm st.currentChunkIndex st
  · intro hfalse
    unfold processMoreSt at hfalse ⊢
    split at hfalse
    · rename_i hle
      rw [if_pos hle, if_pos hle]
    · rename_i hgt
      rw [if_neg hgt]
      dsimp only at hfalse ⊢
      have hlen : (processChunkSt fm st.currentChunkIndex st).chunks.length =
        st.chunks.length := processChunkSt_length fm st.currentChunkIndex st
      have hcur : st.chunks.length ≤ st.currentChunkIndex + 1 := by
        have := of_decide_eq_false hfalse
        omega
      rw [if_pos (by simpa [hlen] using hcur)]

/-- Witness for C5 on a concrete exhausted processor. -/
theorem C5_processMore_witness :
    (processMoreSt trivFreq tinyProcessorSt).1 = false ∧
      isFullyProcessedSt (processMoreSt trivFreq tinyProcessorSt).2 = true ∧
      processMoreSt trivFreq (processMoreSt trivFreq tinyProcessorSt).2 =
        (false, (processMoreSt trivFreq tinyProcessorSt).2) :=
  ⟨by decide,
   (C5_processMore trivFreq ['h', 'i'] DEFAULT_SETTINGS 10000 tinyProcessorSt
      Reachable.init).1 (by decide),
   (C5_processMore trivFreq ['h', 'i'] DEFAULT_SETTINGS 10000 tinyProcessorSt
      Reachable.init).2 (by decide)⟩

/-- Counterexample to claim C5 as stated: after a `getSlides(0, 9)` read
has processed every chunk ahead of the cursor, `processMore()` still
returns `true` although no unprocessed chunk remains (neither before nor
after the call). -/
theorem C5_counterexample :
    Reachable trivFreq nineWordText DEFAULT_SETTINGS 6 aheadOfCursorSt ∧
      isFullyProcessedSt aheadOfCursorSt = true ∧
      (processMoreSt trivFreq aheadOfCursorSt).1 = true ∧
      isFullyProcessedSt (processMoreSt trivFreq aheadOfCursorSt).2 = true :=
  ⟨Reachable.ensure 0 9 Reachable.init, by decide, by decide, by decide⟩

/-- `processChunk` never changes the stored estimate. -/
theorem processChunkSt_estimate (fm : FreqModel) (i : ℕ) (st : ProcState) :
    (processChunkSt fm i st).estimatedTotalSlides = st.estimatedTotalSlides := by
  unfold processChunkSt
  repeat' split
  all_goals rfl

/-- `processMore` never changes the stored estimate. -/
theorem processMoreSt_estimate (fm : FreqModel) (st : ProcState) :
    (processMoreSt fm st).2.estimatedTotalSlides = st.estimatedTotalSlides := by
  unfold processMoreSt
  split
  · rfl
  · exact processChunkSt_estimate fm st.currentChunkIndex st

/-- `processAll` never changes the stored estimate. -/
theorem processAllAux_estimate (fm : FreqModel) :
    ∀ (fuel : ℕ) (st : ProcState),
      (processAllAux fm fuel st).estimatedTotalSlides = st.estimatedTotalSlides := by
  intro fuel
  induction fuel with
  | zero => intro st; rfl
  | succ fuel ih =>
    intro st
    unfold processAllAux
    split
    · exact (ih _).trans (processChunkSt_estimate fm st.currentChunkIndex st)
    · rfl

/-- The `ensureSlidesProcessed` scan never changes the stored estimate. -/
theorem ensureLoopAux_estimate (fm : FreqModel) (s e : ℕ) :
    ∀ (fuel i sc : ℕ) (st : ProcState),
      (ensureLoopAux fm s e fuel i sc st).estimatedTotalSlides =
        st.estimatedTotalSlides := by
  intro fuel
  induction fuel with
  | zero => intro _ _ st; rfl
  | succ fuel ih =>
    intro i sc st
    unfold ensureLoopAux
    dsimp only
    repeat' split
    all_goals
      first
        | rfl
        | exact processChunkSt_estimate fm i st
        | exact ih _ _ _
        | exact (ih _ _ _).trans (processChunkSt_estimate fm i st)

/-- The flat slide array's length is the sum, over all chunks, of the
processed chunks' slide counts. -/
theorem allSlides_length_sum :
    ∀ l : List TextChunk,
      ((l.filter (·.processed)).flatMap (·.slides)).length =
        (l.map (fun c => if c.processed = true then c.slides.length else 0)).sum := by
  intro l
  induction l with
  | nil => rfl
  | cons c rest ih =>
    by_cases h : c.processed = true
    · simp [List.filter_cons, h, ih]
    · simp [List.filter_cons, h, ih]

/-- Marking an unprocessed chunk processed with slide list `new.slides`
adds exactly `new.slides.length` to the processed-weight sum. -/
theorem weight_sum_set :
    ∀ (l : List TextChunk) (i : ℕ) (old new : TextChunk), l[i]? = some old →
      old.processed = false → new.processed = true →
      ((l.set i new).map
          (fun c => if c.processed = true then c.slides.length else 0)).sum =
        (l.map (fun c => if c.processed = true then c.slides.length else 0)).sum +
          new.slides.length := by
  intro l
  induction l with
  | nil => intro i old new h _ _; cases h
  | cons a rest ih =>
    intro i old new h hold hnew
    match i with
    | 0 =>
      have ha : a = old := by simpa using h
      subst ha
      show ((new :: rest).map _).sum = _
      simp only [List.map_cons, List.sum_cons, hold, hnew]
      have h1 : (if false = true then a.slides.length else 0) = 0 := rfl
      have h2 : (if True then new.slides.length else 0) = new.slides.length := if_pos trivial
      omega
    | i + 1 =>
      have h' : rest[i]? = some old := by simpa using h
      have ih' := ih i old new h' hold hnew
      show ((a :: rest.set i new).map _).sum = _
      simp only [List.map_cons, List.sum_cons, ih']
      omega

/-- `processChunk` keeps the running total equal to the flat array length. -/
theorem processChunkSt_count (fm : FreqModel) (i : ℕ) (st : ProcState)
    (h : (allSlides st).length = st.totalProcessedSlides) :
    (allSlides (processChunkSt fm i st)).length =
      (processChunkSt fm i st).totalProcessedSlides := by
  unfold processChunkSt
  split
  · exact h
  · rename_i chunk hsome
    split
    · exact h
    · rename_i hunproc
      unfold allSlides at h ⊢
      dsimp only
      rw [allSlides_length_sum] at h ⊢
      rw [weight_sum_set st.chunks i chunk _ hsome
        (by simpa using hunproc) rfl]
      dsimp only
      omega

/-- Iterating `processChunk` preserves the running-total invariant. -/
theorem foldl_processChunkSt_count (fm : FreqModel) :
    ∀ (l : List ℕ) (st : ProcState), CountInv st →
      CountInv (l.foldl (fun s i => processChunkSt fm i s) st) := by
  intro l
  induction l with
  | nil => intro st h; exact h
  | cons i rest ih =>
    intro st h
    exact ih _ (processChunkSt_count fm i st h)

/-- Unprocessed chunk lists contribute no slides. -/
theorem allSlides_nil_of_unprocessed (st : ProcState)
    (h : ∀ c ∈ st.chunks, c.processed = false) : allSlides st = [] := by
  unfold allSlides
  have : st.chunks.filter (·.processed) = [] := by
    rw [List.filter_eq_nil_iff]
    intro c hc
    simp [h c hc]
  rw [this]
  rfl

/-- The running-total invariant holds at construction. -/
theorem createChunkedProcessor_count (fm : FreqModel) (text : Str)
    (settings : ReaderSettings) (cs : ℕ) :
    CountInv (createChunkedProcessor fm text settings cs) := by
  unfold createChunkedProcessor
  dsimp only
  have h0 : CountInv
      { settings := settings
        chunks := buildChunks text cs
        totalProcessedSlides := 0
        currentChunkIndex := 0
        estimatedTotalSlides := ceilDivNat (jsSplitWS text).length settings.chunkSize } := by
    unfold CountInv
    rw [allSlides_nil_of_unprocessed _
      (fun c hc => buildChunksAux_unprocessed text cs text.length 0 c hc)]
    rfl
  repeat' split
  all_goals
    first
      | exact foldl_processChunkSt_count fm _ _ h0
      | exact processChunkSt_count fm 0 _ h0

/-- `processMore` preserves the running-total invariant. -/
theorem processMoreSt_count (fm : FreqModel) (st : ProcState)
    (h : CountInv st) : CountInv (processMoreSt fm st).2 := by
  unfold processMoreSt
  split
  · exact h
  · exact processChunkSt_count fm st.currentChunkIndex st h

/-- `processAll` preserves the running-total invariant. -/
theorem processAllAux_count (fm : FreqModel) :
    ∀ (fuel : ℕ) (st : ProcState), CountInv st →
      CountInv (processAllAux fm fuel st) := by
  intro fuel
  induction fuel with
  | zero => intro st h; exact h
  | succ fuel ih =>
    intro st h
    unfold processAllAux
    split
    · exact ih _ (processChunkSt_count fm st.currentChunkIndex st h)
    · exact h

/-- The `ensureSlidesProcessed` scan preserves the running-total invariant. -/
theorem ensureLoopAux_count (fm : FreqModel) (s e : ℕ) :
    ∀ (fuel i sc : ℕ) (st : ProcState), CountInv st →
      CountInv (ensureLoopAux fm s e fuel i sc st) := by
  intro fuel
  induction fuel with
  | zero => intro _ _ st h; exact h
  | succ fuel ih =>
    intro i sc st h
    unfold ensureLoopAux
    dsimp only
    repeat' split
    all_goals
      first
        | exact h
        | exact processChunkSt_count fm i st h
        | exact ih _ _ _ h
        | exact ih _ _ _ (processChunkSt_count fm i st h)

/-- Every reachable state satisfies the running-total invariant. -/
theorem reachable_count {fm : FreqModel} {text : Str}
    {settings : ReaderSettings} {cs : ℕ} {st : ProcState}
    (h : Reachable fm text settings cs st) : CountInv st := by
  induction h with
  | init => exact createChunkedProcessor_count fm text settings cs
  | more _ ih => exact processMoreSt_count fm _ ih
  | drain _ ih => exact processAllAux_count fm _ _ ih
  | ensure a b _ ih => exact ensureLoopAux_count fm _ _ _ _ _ _ ih

/-- Every reachable state keeps the construction-time estimate. -/
theorem reachable_estimate {fm : FreqModel} {text : Str}
    {settings : ReaderSettings} {cs : ℕ} {st : ProcState}
    (h : Reachable fm text settings cs st) :
    st.estimatedTotalSlides =
      (createChunkedProcessor fm text settings cs).estimatedTotalSlides := by
  induction h with
  | init => rfl
  | more _ ih => exact (processMoreSt_estimate fm _).trans ih
  | drain _ ih => exact (processAllAux_estimate fm _ _).trans ih
  | ensure a b _ ih => exact (ensureLoopAux_estimate fm _ _ _ _ _ _).trans ih

/-- Claim C2, amended: in every reachable state the stored estimate equals
the construction-time estimate; `totalEstimatedSlides` returns that frozen
estimate while any chunk is unprocessed and the exact processed count once
every chunk is processed; `processedSlidesCount` always equals the running
total of slides over processed chunks.  (Monotonicity fails: the claim's
"never decreases" and "is always at least processedSlidesCount" are both
refuted by the counterexample.) -/
theorem C2_totalEstimatedSlides (fm : FreqModel) (text : Str)
    (settings : ReaderSettings) (cs : ℕ) (st : ProcState)
    (h : Reachable fm text settings cs st) :
    st.estimatedTotalSlides =
        (createChunkedProcessor fm text settings cs).estimatedTotalSlides ∧
      (isFullyProcessedSt st = false →
        totalEstimatedSlidesSt st = st.estimatedTotalSlides) ∧
      (isFullyProcessedSt st = true →
        totalEstimatedSlidesSt st = processedSlidesCountSt st) ∧
      processedSlidesCountSt st = st.totalProcessedSlides := by
  refine ⟨reachable_estimate h, ?_, ?_, reachable_count h⟩
  · intro hfull
    unfold totalEstimatedSlidesSt
    rw [hfull]
    rfl
  · intro hfull
    unfold totalEstimatedSlidesSt
    rw [hfull]
    rfl

/-- Witness for C2 on a concrete reachable state. -/
theorem C2_totalEstimatedSlides_witness :
    totalEstimatedSlidesSt tinyProcessorSt = processedSlidesCountSt tinyProcessorSt ∧
      processedSlidesCountSt tinyProcessorSt = tinyProcessorSt.totalProcessedSlides :=
  ⟨(C2_totalEstimatedSlides trivFreq ['h', 'i'] DEFAULT_SETTINGS 10000
      tinyProcessorSt Reachable.init).2.2.1 (by decide),
   (C2_totalEstimatedSlides trivFreq ['h', 'i'] DEFAULT_SETTINGS 10000
      tinyProcessorSt Reachable.init).2.2.2⟩

/-- Counterexample to claim C2 as stated: (i) after one `processMore` on
`denseTailText`, `processedSlidesCount` is 6 while `totalEstimatedSlides`
is only 4, violating "always at least `processedSlidesCount`"; (ii) on
`sparseTailText`, the reachable state with one unprocessed chunk reports
`totalEstimatedSlides = 28`, and the very next `processMore` step drops it
to the exact total 12, violating "never decreases". -/
theorem C2_counterexample :
    Reachable trivFreq denseTailText DEFAULT_SETTINGS 10 estOvertakenSt ∧
      processedSlidesCountSt estOvertakenSt = 6 ∧
      totalEstimatedSlidesSt estOvertakenSt = 4 ∧
      Reachable trivFreq sparseTailText DEFAULT_SETTINGS 10 estHighSt ∧
      totalEstimatedSlidesSt estHighSt = 28 ∧
      totalEstimatedSlidesSt (processMoreSt trivFreq estHighSt).2 = 12 :=
  ⟨Reachable.more Reachable.init, by decide, by decide,
   Reachable.more (Reachable.more (Reachable.more (Reachable.more Reachable.init))),
   by decide, by decide⟩

/-- `zeroLastPostDelay` keeps slide numbers and continuation flags. -/
theorem zeroLastPostDelay_numFlag : ∀ l : List TextSlide,
    (zeroLastPostDelay l).map numFlag = l.map numFlag := by
  intro l
  match l with
  | [] => rfl
  | [s] => rfl
  | s :: t :: rest =>
    have ih := zeroLastPostDelay_numFlag (t :: rest)
    show numFlag s :: (zeroLastPostDelay (t :: rest)).map numFlag = _
    rw [ih]
    rfl

/-- The slide-building loop stamps the running number on the head slide and
produces the exact successor numbering chain. -/
theorem buildSlides_numbers (settings : ReaderSettings) :
    ∀ (fuel curNum : ℕ) (items : List FirstPassItem),
      (((buildSlides settings fuel curNum items).head?.map
          (·.slideNumber)).getD curNum = curNum) ∧
        List.Chain' numStep (buildSlides settings fuel curNum items) := by
  intro fuel
  induction fuel with
  | zero => intro curNum items; exact ⟨rfl, List.chain'_nil⟩
  | succ fuel ih =>
    intro curNum items
    match items with
    | [] => exact ⟨rfl, List.chain'_nil⟩
    | item :: rest =>
      rcases htc : takeChunk settings.chunkSize (item :: rest) with _ | ⟨g, gs⟩
      · have hun0 : buildSlides settings (fuel + 1) curNum (item :: rest) = [] := by
          show (match takeChunk settings.chunkSize (item :: rest) with
            | [] => ([] : List TextSlide)
            | g :: gs => mkSlide settings curNum (g :: gs) ::
                buildSlides settings fuel
                  (if g.isChildOfPrevious then curNum else curNum + 1)
                  ((item :: rest).drop (g :: gs).length)) = []
          rw [htc]
        rw [hun0]
        exact ⟨rfl, List.chain'_nil⟩
      · have hun : buildSlides settings (fuel + 1) curNum (item :: rest) =
            mkSlide settings curNum (g :: gs) ::
              buildSlides settings fuel
                (if g.isChildOfPrevious then curNum else curNum + 1)
                ((item :: rest).drop (g :: gs).length) := by
          show (match takeChunk settings.chunkSize (item :: rest) with
            | [] => ([] : List TextSlide)
            | g :: gs => mkSlide settings curNum (g :: gs) ::
                buildSlides settings fuel
                  (if g.isChildOfPrevious then curNum else curNum + 1)
                  ((item :: rest).drop (g :: gs).length)) = _
          rw [htc]
        rw [hun]
        refine ⟨rfl, ?_⟩
        refine List.chain'_cons'.2 ⟨?_, (ih _ _).2⟩
        intro b hb
        have hbeq : (buildSlides settings fuel
            (if g.isChildOfPrevious then curNum else curNum + 1)
            ((item :: rest).drop (g :: gs).length)).head? = some b :=
          Option.mem_def.1 hb
        have hh := (ih (if g.isChildOfPrevious then curNum else curNum + 1)
          ((item :: rest).drop (g :: gs).length)).1
        rw [hbeq] at hh
        simp only [Option.map_some', Option.getD_some] at hh
        show b.slideNumber = if g.isChildOfPrevious = true then curNum
          else curNum + 1
        exact hh

/-- `tokenizeText` output satisfies the exact successor numbering chain. -/
theorem tokenizeText_numStep (text : Str) (settings : ReaderSettings) :
    List.Chain' numStep (tokenizeText text settings) := by
  unfold tokenizeText
  set out := buildSlides settings
    (splitTextSecondPass (splitTextFirstPass text settings)).length 1
    (splitTextSecondPass (splitTextFirstPass text settings)) with hout
  have hchain : List.Chain' numStep out := (buildSlides_numbers settings _ _ _).2
  have hmap : (zeroLastPostDelay out).map numFlag = out.map numFlag :=
    zeroLastPostDelay_numFlag out
  have hR (l : List TextSlide) : List.Chain' numStep l ↔
      List.Chain' (fun p q : ℕ × Bool => q.1 = if p.2 = true then p.1 else p.1 + 1)
        (l.map numFlag) := by
    rw [List.chain'_map]
    rfl
  rw [hR, hmap, ← hR]
  exact hchain

/-- `tokenizeText` numbers its first slide 1. -/
theorem tokenizeText_head_number (text : Str) (settings : ReaderSettings) :
    ((tokenizeText text settings).head?.map (·.slideNumber)).getD 1 = 1 := by
  unfold tokenizeText
  set out := buildSlides settings
    (splitTextSecondPass (splitTextFirstPass text settings)).length 1
    (splitTextSecondPass (splitTextFirstPass text settings)) with hout
  have hhead : (out.head?.map (·.slideNumber)).getD 1 = 1 :=
    (buildSlides_numbers settings _ _ _).1
  have hmapF : (zeroLastPostDelay out).map numFlag = out.map numFlag :=
    zeroLastPostDelay_numFlag out
  have h1 : (zeroLastPostDelay out).head?.map numFlag = out.head?.map numFlag := by
    rw [← List.head?_map, ← List.head?_map, hmapF]
  have hsplit (l : List TextSlide) :
      l.head?.map (·.slideNumber : TextSlide → ℕ) =
        (l.head?.map numFlag).map Prod.fst := by
    rw [Option.map_map]
    rfl
  rw [hsplit, h1, ← hsplit]
  exact hhead

/-- `numStep` implies the numbers never decrease. -/
theorem numStep_le {a b : TextSlide} (h : numStep a b) :
    a.slideNumber ≤ b.slideNumber := by
  unfold numStep at h
  rw [h]
  split
  · exact le_refl _
  · exact Nat.le_succ _

/-- `tokenizeText` slide numbers are monotonically non-decreasing. -/
theorem tokenizeText_monotone (text : Str) (settings : ReaderSettings) :
    List.Chain' (· ≤ ·) ((tokenizeText text settings).map (·.slideNumber)) := by
  rw [List.chain'_map]
  exact (tokenizeText_numStep text settings).imp (fun a b h => numStep_le h)

/-- Continuation flags of the long-word items from index 1 on. -/
theorem longWordItemsAux_flags (word : Str) (n total : ℕ) :
    ∀ (ps : List Str) (idx : ℕ), 0 < idx →
      (longWordItemsAux word n total idx ps).map (·.isChildOfPrevious) =
        List.replicate ps.length true := by
  intro ps
  induction ps with
  | nil => intro idx _; rfl
  | cons p rest ih =>
    intro idx hidx
    show decide (0 < idx) :: (longWordItemsAux word n total (idx + 1) rest).map
        (·.isChildOfPrevious) = _
    rw [ih (idx + 1) (by omega), decide_eq_true_eq.mpr hidx]
    rfl

/-- Slide numbers of the long-word items. -/
theorem longWordItemsAux_nums (word : Str) (n total : ℕ) :
    ∀ (ps : List Str) (idx : ℕ),
      (longWordItemsAux word n total idx ps).map (·.slideNumber) =
        List.replicate ps.length n := by
  intro ps
  induction ps with
  | nil => intro idx; rfl
  | cons p rest ih =>
    intro idx
    show n :: (longWordItemsAux word n total (idx + 1) rest).map (·.slideNumber) = _
    rw [ih (idx + 1)]
    rfl

/-- `splitLongWord` of a non-empty word is non-empty. -/
theorem splitLongWord_ne_nil (word : Str) (h : word ≠ []) :
    splitLongWord word ≠ [] := by
  unfold splitLongWord
  match hfuel : word.length with
  | 0 => exact absurd (List.eq_nil_of_length_eq_zero hfuel) h
  | fuel + 1 =>
    unfold splitLongWordAux
    split
    · exact List.cons_ne_nil _ _
    · exact List.cons_ne_nil _ _

/-- The first-pass items of an over-long word: continuation on all but the
first item, and one shared slide number. -/
theorem longWordItems_structure (word : Str) (n : ℕ) (h : word ≠ []) :
    (longWordItems word n).map (·.isChildOfPrevious) =
        false :: List.replicate ((splitLongWord word).length - 1) true ∧
      (longWordItems word n).map (·.slideNumber) =
        List.replicate (splitLongWord word).length n := by
  obtain ⟨p, ps, hps⟩ := List.exists_cons_of_ne_nil (splitLongWord_ne_nil word h)
  unfold longWordItems
  rw [hps]
  constructor
  · show decide (0 < 0) :: (longWordItemsAux word n (p :: ps).length 1 ps).map
        (·.isChildOfPrevious) = _
    rw [longWordItemsAux_flags word n _ ps 1 (by omega)]
    simp
  · show n :: (longWordItemsAux word n (p :: ps).length 1 ps).map (·.slideNumber) = _
    rw [longWordItemsAux_nums word n _ ps 1]
    simp [List.replicate_succ]

/-- Claim C4, amended: in `tokenizeText` output the first slide is numbered
1, each next slide's number is its predecessor's number (when the
predecessor is a continuation) or its successor (otherwise), so numbers are
monotonically non-decreasing; only the first fragment of a split long word
is a non-continuation.  Fragments therefore do not share one slide number
in the output: a continuation's number is one more than its first
fragment's (which it shares with the following word instead), although the
first-pass items do share one number.  (In the chunked processor's flat
array, monotonicity can fail after random-access processing — see the
counterexample.) -/
theorem C4_slide_numbers :
    (∀ (text : Str) (settings : ReaderSettings),
      ((tokenizeText text settings).head?.map (·.slideNumber)).getD 1 = 1 ∧
        List.Chain' numStep (tokenizeText text settings) ∧
        List.Chain' (· ≤ ·) ((tokenizeText text settings).map (·.slideNumber))) ∧
      (∀ (word : Str) (n : ℕ), word ≠ [] →
        (longWordItems word n).map (·.isChildOfPrevious) =
            false :: List.replicate ((splitLongWord word).length - 1) true ∧
          (longWordItems word n).map (·.slideNumber) =
            List.replicate (splitLongWord word).length n) :=
  ⟨fun text settings =>
    ⟨tokenizeText_head_number text settings, tokenizeText_numStep text settings,
     tokenizeText_monotone text settings⟩,
   fun word n h => longWordItems_structure word n h⟩

/-- Witness for C4 on the 25-character consonant word. -/
theorem C4_slide_numbers_witness :
    (longWordItems longWordB 1).map (·.isChildOfPrevious) =
        false :: List.replicate ((splitLongWord longWordB).length - 1) true ∧
      (longWordItems longWordB 1).map (·.slideNumber) =
        List.replicate (splitLongWord longWordB).length 1 :=
  C4_slide_numbers.2 longWordB 1 (by decide)

/-- Counterexample to claim C4 as stated: (i) the fragments of the
hyphenated word `"one-two-three-four"` do not share one slide number in
`tokenizeText` output — the numbers are `[1, 2, 2, 2]` although all four
slides come from the one word and carry the claimed continuation flags;
(ii) in the chunked processor, a `getSlide(8)` read processes chunk 2
before chunk 1, and after the next `processMore` the flat slide array's
numbers are `[1, 2, 3, 7, 8, 9, 4, 5, 6]` — not monotonically
non-decreasing. -/
theorem C4_counterexample :
    (tokenizeText hyphenWord DEFAULT_SETTINGS).map (·.textOriginal) =
        List.replicate 4 hyphenWord ∧
      (tokenizeText hyphenWord DEFAULT_SETTINGS).map (·.isChildOfPrevious) =
        [false, true, true, true] ∧
      (tokenizeText hyphenWord DEFAULT_SETTINGS).map (·.slideNumber) =
        [1, 2, 2, 2] ∧
      Reachable trivFreq nineWordText DEFAULT_SETTINGS 6 outOfOrderSt ∧
      (allSlides outOfOrderSt).map (·.slideNumber) = [1, 2, 3, 7, 8, 9, 4, 5, 6] ∧
      ¬ List.Chain' (· ≤ ·) ((allSlides outOfOrderSt).map (·.slideNumber)) := by
  refine ⟨by decide, by decide, by decide,
    Reachable.more (Reachable.ensure 8 1 Reachable.init), by decide, ?_⟩
  have hmap : (allSlides outOfOrderSt).map (·.slideNumber) =
      [1, 2, 3, 7, 8, 9, 4, 5, 6] := by decide
  rw [hmap]
  simp [List.chain'_cons]

/-- `replaceAll` is the identity on strings avoiding the pattern's first
character. -/
theorem replaceAllAux_id (pc : Char) (pr repl : Str) :
    ∀ (fuel : ℕ) (s : Str), (∀ c ∈ s, c ≠ pc) →
      replaceAllAux (pc :: pr) repl fuel s = s := by
  intro fuel
  induction fuel with
  | zero => intro s _; rfl
  | succ fuel ih =>
    intro s hs
    match s with
    | [] => rfl
    | c :: rest =>
      show (if (pc :: pr) ≠ [] ∧ (pc :: pr).isPrefixOf (c :: rest) then _ else
        c :: replaceAllAux (pc :: pr) repl fuel rest) = c :: rest
      rw [if_neg]
      · rw [ih rest (fun d hd => hs d (List.mem_cons_of_mem c hd))]
      · rintro ⟨-, hpre⟩
        have hc : pc = c := by
          have hpre' : ((pc == c) && pr.isPrefixOf rest) = true := hpre
          simp only [Bool.and_eq_true, beq_iff_eq] at hpre'
          exact hpre'.1
        exact hs c (List.mem_cons_self c rest) hc.symm

/-- `htmlDecode` is the identity on ampersand-free strings. -/
theorem htmlDecode_id (s : Str) (hs : ∀ c ∈ s, c ≠ '&') : htmlDecode s = s := by
  unfold htmlDecode
  unfold replaceAll
  rw [replaceAllAux_id '&' _ _ _ s hs, replaceAllAux_id '&' _ _ _ s hs,
    replaceAllAux_id '&' _ _ _ s hs, replaceAllAux_id '&' _ _ _ s hs,
    replaceAllAux_id '&' _ _ _ s hs, replaceAllAux_id '&' _ _ _ s hs]

/-- The punctuation-space insertion is the identity on punctuation-free
strings. -/
theorem addPunctSpace_id : ∀ s : Str, (∀ c ∈ s, punctChar c = false) →
    addPunctSpace s = s := by
  intro s
  match s with
  | [] => intro _; rfl
  | [c] =>
    intro h
    show (if punctChar c then [c, ' '] else [c]) = [c]
    rw [h c (List.mem_singleton.2 rfl)]
    rfl
  | c :: d :: rest =>
    intro h
    have ih := addPunctSpace_id (d :: rest)
      (fun e he => h e (List.mem_cons_of_mem c he))
    show (if punctChar c && d ≠ ' ' then c :: ' ' :: addPunctSpace (d :: rest)
      else c :: addPunctSpace (d :: rest)) = c :: d :: rest
    rw [h c (List.mem_cons_self c (d :: rest))]
    show c :: addPunctSpace (d :: rest) = c :: d :: rest
    rw [ih]

/-- `dropWhile` is the identity when no element satisfies the predicate. -/
theorem dropWhile_id (p : Char → Bool) :
    ∀ s : Str, (∀ c ∈ s, p c = false) → s.dropWhile p = s := by
  intro s hs
  match s with
  | [] => rfl
  | c :: rest =>
    rw [List.dropWhile_cons, hs c (List.mem_cons_self c rest)]
    rfl

/-- `jsTrim` is the identity on whitespace-free strings. -/
theorem jsTrim_id (s : Str) (hs : ∀ c ∈ s, jsSpace c = false) :
    jsTrim s = s := by
  unfold jsTrim
  rw [dropWhile_id jsSpace s hs,
    dropWhile_id jsSpace s.reverse (fun c hc => hs c (List.mem_reverse.1 hc)),
    List.reverse_reverse]

/-- `jsWordsAux` on the empty string is empty for any fuel. -/
theorem jsWordsAux_nil : ∀ fuel : ℕ, jsWordsAux fuel [] = [] := by
  intro fuel
  cases fuel with
  | zero => rfl
  | succ fuel => rfl

/-- A non-empty whitespace-free string is a single `/\S+/` match. -/
theorem jsWords_single (w : Str) (hne : w ≠ [])
    (hs : ∀ c ∈ w, jsSpace c = false) : jsWords w = [w] := by
  unfold jsWords
  match w, hne with
  | c :: cs, _ =>
    show jsWordsAux (cs.length + 1) (c :: cs) = [c :: cs]
    unfold jsWordsAux
    rw [dropWhile_id jsSpace (c :: cs) hs]
    show (c :: cs).takeWhile (fun c => !jsSpace c) ::
      jsWordsAux cs.length ((c :: cs).dropWhile (fun c => !jsSpace c)) = [c :: cs]
    rw [List.takeWhile_eq_self_iff.2 (fun a ha => by rw [hs a ha]; rfl),
      List.dropWhile_eq_nil_iff.2 (fun a ha => by rw [hs a ha]; rfl),
      jsWordsAux_nil]

/-- Unfolding equation for `splitLongWordAux` at positive fuel. -/
theorem splitLongWordAux_succ (fuel : ℕ) (rem : Str) :
    splitLongWordAux 10 (fuel + 1) rem =
      if 10 < rem.length then
        rem.take (breakPoint rem 10) ::
          splitLongWordAux 10 fuel (rem.drop (breakPoint rem 10))
      else if rem = [] then [] else [rem] := rfl

/-- The heuristic break point always lies in `[1, 10]`. -/
theorem breakPoint_bounds (rem : Str) :
    1 ≤ breakPoint rem 10 ∧ breakPoint rem 10 ≤ 10 := by
  unfold breakPoint
  dsimp only
  split
  · rename_i i hf
    have hmem := List.mem_of_find?_eq_some hf
    rw [List.mem_reverse] at hmem
    have hfil := List.mem_filter.1 hmem
    have hrange := List.mem_range.1 hfil.1
    omega
  · omega

/-- `splitLongWord`'s loop: the pieces concatenate back to the word, every
piece is non-empty and at most 10 characters, and a non-empty word yields
at least one piece. -/
theorem splitLongWordAux_spec :
    ∀ (fuel : ℕ) (rem : Str), rem.length ≤ fuel →
      (splitLongWordAux 10 fuel rem).flatten = rem ∧
        (∀ p ∈ splitLongWordAux 10 fuel rem, p ≠ [] ∧ p.length ≤ 10) ∧
        (rem ≠ [] → splitLongWordAux 10 fuel rem ≠ []) := by
  intro fuel
  induction fuel with
  | zero =>
    intro rem hlen
    have : rem = [] := List.eq_nil_of_length_eq_zero (by omega)
    subst this
    exact ⟨rfl, fun p hp => absurd hp (List.not_mem_nil p), fun h => absurd rfl h⟩
  | succ fuel ih =>
    intro rem hlen
    rw [splitLongWordAux_succ]
    by_cases h10 : 10 < rem.length
    · rw [if_pos h10]
      obtain ⟨hbp1, hbp10⟩ := breakPoint_bounds rem
      have hdrop : (rem.drop (breakPoint rem 10)).length ≤ fuel := by
        rw [List.length_drop]
        omega
      obtain ⟨ihflat, ihmem, _⟩ := ih (rem.drop (breakPoint rem 10)) hdrop
      refine ⟨?_, ?_, fun _ => List.cons_ne_nil _ _⟩
      · rw [List.flatten_cons, ihflat, List.take_append_drop]
      · intro p hp
        rcases List.mem_cons.1 hp with rfl | hmem
        · constructor
          · intro hnil
            have hlen0 := congrArg List.length hnil
            rw [List.length_take] at hlen0
            simp only [List.length_nil] at hlen0
            rcases Nat.min_eq_zero_iff.1 hlen0 with h0 | h0 <;> omega
          · rw [List.length_take]
            omega
        · exact ihmem p hmem
    · rw [if_neg h10]
      by_cases hnil : rem = []
      · rw [if_pos hnil]
        exact ⟨hnil.symm, fun p hp => absurd hp (List.not_mem_nil p),
          fun h => absurd hnil h⟩
      · rw [if_neg hnil]
        refine ⟨by simp, ?_, fun _ => List.cons_ne_nil _ _⟩
        intro p hp
        have : p = rem := List.mem_singleton.1 hp
        subst this
        exact ⟨hnil, by omega⟩

/-- `splitLongWord`: non-empty ≤10-character pieces concatenating to the
word. -/
theorem splitLongWord_spec (w : Str) :
    (splitLongWord w).flatten = w ∧
      (∀ p ∈ splitLongWord w, p ≠ [] ∧ p.length ≤ 10) ∧
      (w ≠ [] → splitLongWord w ≠ []) :=
  splitLongWordAux_spec w.length w (le_refl _)

/-- A word longer than 10 characters splits into at least two pieces. -/
theorem splitLongWord_two_pieces (w : Str) (h10 : 10 < w.length) :
    2 ≤ (splitLongWord w).length := by
  unfold splitLongWord
  match hlen : w.length, h10 with
  | fuel + 1, _ =>
    rw [splitLongWordAux_succ, if_pos (by omega)]
    have hbp := breakPoint_bounds w
    have hdlen : (w.drop (breakPoint w 10)).length ≤ fuel := by
      rw [List.length_drop]
      omega
    have hdne : w.drop (breakPoint w 10) ≠ [] := by
      intro hnil
      have := congrArg List.length hnil
      rw [List.length_drop] at this
      simp at this
      omega
    have := (splitLongWordAux_spec fuel (w.drop (breakPoint w 10)) hdlen).2.2 hdne
    rcases hrec : splitLongWordAux 10 fuel (w.drop (breakPoint w 10)) with _ | ⟨q, qs⟩
    · exact absurd hrec this
    · simp

/-- Components of the plain-word-character class. -/
theorem plainWordChar_spec (c : Char) (h : plainWordChar c = true) :
    jsSpace c = false ∧ punctChar c = false ∧ c ≠ '&' ∧ c ≠ '-' ∧
      c.isAlphanum = true := by
  unfold plainWordChar at h
  simp only [Bool.and_eq_true, Bool.not_eq_true', decide_eq_true_eq] at h
  exact ⟨h.1.1.1.1, h.1.1.1.2, h.1.1.2, h.1.2, h.2⟩

/-- The display texts of the long-word items are the hyphenated pieces. -/
theorem longWordItemsAux_texts (word : Str) (n total : ℕ) :
    ∀ (ps : List Str) (idx : ℕ),
      (longWordItemsAux word n total idx ps).map (·.text) =
        hyphenated total idx ps := by
  intro ps
  induction ps with
  | nil => intro idx; rfl
  | cons p rest ih =>
    intro idx
    show (if idx < total - 1 then p ++ ['-'] else p) ::
      (longWordItemsAux word n total (idx + 1) rest).map (·.text) = _
    rw [ih (idx + 1)]
    rfl

/-- A string with an alphanumeric member is not punctuation-only. -/
theorem isPunctuationOnly_false_of (s : Str) (c : Char) (hc : c ∈ s)
    (h : c.isAlphanum = true) : isPunctuationOnly s = false := by
  unfold isPunctuationOnly
  rw [Bool.eq_false_iff]
  intro hall
  rw [List.all_eq_true] at hall
  have := hall c hc
  rw [Bool.not_eq_true'] at this
  rw [h] at this
  cases this

/-- `splitTextFirstPass` on a single plain over-long word takes the
long-word branch. -/
theorem firstPass_single_long (w : Str) (settings : ReaderSettings)
    (hplain : ∀ c ∈ w, plainWordChar c = true) (hlen : 17 < w.length)
    (hcs : settings.chunkSize = 1) :
    splitTextFirstPass w settings = longWordItems w 1 := by
  have hne : w ≠ [] := by
    intro h
    rw [h] at hlen
    simp at hlen
  unfold splitTextFirstPass
  rw [if_neg hne]
  rw [htmlDecode_id w (fun c hc => (plainWordChar_spec c (hplain c hc)).2.2.1)]
  rw [addPunctSpace_id w (fun c hc => (plainWordChar_spec c (hplain c hc)).2.1)]
  rw [jsWords_single w hne (fun c hc => (plainWordChar_spec c (hplain c hc)).1)]
  show (firstPassWord settings w 1).1 ++ firstPassLoop settings [] (firstPassWord settings w 1).2 = _
  rw [show firstPassLoop settings [] (firstPassWord settings w 1).2 = [] from rfl,
    List.append_nil]
  have hcontains : w.contains '-' = false := by
    rw [Bool.eq_false_iff]
    intro hmem
    have : '-' ∈ w := by
      simpa using hmem
    exact (plainWordChar_spec '-' (hplain '-' this)).2.2.2.1 rfl
  unfold firstPassWord
  rw [if_neg, if_pos]
  · simp only [Bool.and_eq_true, decide_eq_true_eq]
    exact ⟨hlen, hcs⟩
  · simp only [hcontains, Bool.false_and]
    intro hcontra
    cases hcontra

/-- Characters of a long-word item's text are the word's characters or a
hyphen. -/
theorem longWordItemsAux_text_chars (word : Str) (n total : ℕ) :
    ∀ (ps : List Str) (idx : ℕ) (it : FirstPassItem),
      it ∈ longWordItemsAux word n total idx ps →
      ∃ p, p ∈ ps ∧ (it.text = p ++ ['-'] ∨ it.text = p) := by
  intro ps
  induction ps with
  | nil => intro idx it hit; exact absurd hit (List.not_mem_nil it)
  | cons p rest ih =>
    intro idx it hit
    rcases List.mem_cons.1 hit with rfl | hmem
    · refine ⟨p, List.mem_cons_self p rest, ?_⟩
      show (if idx < total - 1 then p ++ ['-'] else p) = p ++ ['-'] ∨
        (if idx < total - 1 then p ++ ['-'] else p) = p
      split
      · exact Or.inl rfl
      · exact Or.inr rfl
    · obtain ⟨q, hq, hor⟩ := ih (idx + 1) it hmem
      exact ⟨q, List.mem_cons_of_mem p hq, hor⟩

/-- The second pass keeps every long-word item of a plain word. -/
theorem secondPass_longWordItems (w : Str)
    (hplain : ∀ c ∈ w, plainWordChar c = true) :
    splitTextSecondPass (longWordItems w 1) = longWordItems w 1 := by
  unfold splitTextSecondPass
  rw [List.filter_eq_self]
  intro it hit
  obtain ⟨p, hp, hor⟩ := longWordItemsAux_text_chars w 1 _ _ 0 it hit
  have hpspec := (splitLongWord_spec w).2.1 p hp
  have hpw : ∀ c ∈ p, c ∈ w := by
    intro c hc
    have : c ∈ (splitLongWord w).flatten := List.mem_flatten.2 ⟨p, hp, hc⟩
    rwa [(splitLongWord_spec w).1] at this
  obtain ⟨c0, p', hp'⟩ : ∃ c0 p', p = c0 :: p' := by
    rcases hpp : p with _ | ⟨c0, p'⟩
    · exact absurd hpp hpspec.1
    · exact ⟨c0, p', rfl⟩
  have hc0w : c0 ∈ w := hpw c0 (by rw [hp']; exact List.mem_cons_self c0 p')
  have hc0 := plainWordChar_spec c0 (hplain c0 hc0w)
  have htext_ne : it.text ≠ [] := by
    rcases hor with h | h <;> rw [h, hp'] <;> simp
  have htext_mem : c0 ∈ it.text := by
    rcases hor with h | h <;> rw [h, hp']
    · exact List.mem_append_left _ (List.mem_cons_self c0 p')
    · exact List.mem_cons_self c0 p'
  have htext_nospace : ∀ c ∈ it.text, jsSpace c = false := by
    intro c hc
    rcases hor with h | h <;> rw [h] at hc
    · rcases List.mem_append.1 hc with hcp | hcd
      · exact (plainWordChar_spec c (hplain c (hpw c hcp))).1
      · have : c = '-' := List.mem_singleton.1 hcd
        rw [this]
        rfl
    · exact (plainWordChar_spec c (hplain c (hpw c hc))).1
  simp only [Bool.and_eq_true, Bool.not_eq_true', Bool.or_eq_false_iff,
    decide_eq_false_iff_not]
  refine ⟨⟨htext_ne, ?_⟩, ?_⟩
  · rw [jsTrim_id it.text htext_nospace]
    exact htext_ne
  · exact isPunctuationOnly_false_of it.text c0 htext_mem hc0.2.2.2.2

/-- At one word per slide, every group is a single item. -/
theorem takeChunk_one (item : FirstPassItem) (rest : List FirstPassItem) :
    takeChunk 1 (item :: rest) = [item] := by
  show (if punctChar (item.text.getLast?.getD ' ') then [item]
    else if item.text.contains '\n' then [item]
    else item :: takeChunk 0 rest) = [item]
  split
  · rfl
  · split
    · rfl
    · rfl

/-- Unfolding equation for `buildSlides` at one word per slide. -/
theorem buildSlides_cons_one (settings : ReaderSettings)
    (hcs : settings.chunkSize = 1) (fuel curNum : ℕ) (item : FirstPassItem)
    (rest : List FirstPassItem) :
    buildSlides settings (fuel + 1) curNum (item :: rest) =
      mkSlide settings curNum [item] ::
        buildSlides settings fuel
          (if item.isChildOfPrevious = true then curNum else curNum + 1) rest := by
  have htc : takeChunk settings.chunkSize (item :: rest) = [item] := by
    rw [hcs]
    exact takeChunk_one item rest
  show (match takeChunk settings.chunkSize (item :: rest) with
    | [] => ([] : List TextSlide)
    | g :: gs => mkSlide settings curNum (g :: gs) ::
        buildSlides settings fuel
          (if g.isChildOfPrevious then curNum else curNum + 1)
          ((item :: rest).drop (g :: gs).length)) = _
  rw [htc]
  rfl

/-- At one word per slide the texts and flags of the built slides are the
item texts (trimmed) and item flags. -/
theorem buildSlides_one_texts (settings : ReaderSettings)
    (hcs : settings.chunkSize = 1) :
    ∀ (fuel curNum : ℕ) (items : List FirstPassItem), items.length ≤ fuel →
      (buildSlides settings fuel curNum items).map (·.text) =
          items.map (fun it => jsTrim it.text) ∧
        (buildSlides settings fuel curNum items).map (·.isChildOfPrevious) =
          items.map (·.isChildOfPrevious) := by
  intro fuel
  induction fuel with
  | zero =>
    intro curNum items hlen
    have : items = [] := List.eq_nil_of_length_eq_zero (by omega)
    subst this
    exact ⟨rfl, rfl⟩
  | succ fuel ih =>
    intro curNum items hlen
    match items with
    | [] => exact ⟨rfl, rfl⟩
    | item :: rest =>
      rw [buildSlides_cons_one settings hcs]
      have hr := ih (if item.isChildOfPrevious = true then curNum else curNum + 1)
        rest (by simp at hlen; omega)
      constructor
      · show jsTrim (joinSpace [item.text]) ::
          (buildSlides settings fuel _ rest).map (·.text) = _
        rw [hr.1]
        rfl
      · show item.isChildOfPrevious ::
          (buildSlides settings fuel _ rest).map (·.isChildOfPrevious) = _
        rw [hr.2]
        rfl

/-- At one word per slide over all-continuation items, every slide carries
the running number unchanged. -/
theorem buildSlides_one_nums_children (settings : ReaderSettings)
    (hcs : settings.chunkSize = 1) :
    ∀ (fuel curNum : ℕ) (items : List FirstPassItem), items.length ≤ fuel →
      (∀ it ∈ items, it.isChildOfPrevious = true) →
      (buildSlides settings fuel curNum items).map (·.slideNumber) =
        List.replicate items.length curNum := by
  intro fuel
  induction fuel with
  | zero =>
    intro curNum items hlen _
    have : items = [] := List.eq_nil_of_length_eq_zero (by omega)
    subst this
    rfl
  | succ fuel ih =>
    intro curNum items hlen hch
    match items with
    | [] => rfl
    | item :: rest =>
      rw [buildSlides_cons_one settings hcs]
      rw [hch item (List.mem_cons_self item rest), if_pos rfl]
      show curNum :: (buildSlides settings fuel curNum rest).map (·.slideNumber) = _
      rw [ih curNum rest (by simp at hlen; omega)
        (fun it hit => hch it (List.mem_cons_of_mem item hit))]
      rfl

/-- `zeroLastPostDelay` keeps the display texts. -/
theorem zeroLastPostDelay_text : ∀ l : List TextSlide,
    (zeroLastPostDelay l).map (·.text) = l.map (·.text) := by
  intro l
  match l with
  | [] => rfl
  | [s] => rfl
  | s :: t :: rest =>
    have ih := zeroLastPostDelay_text (t :: rest)
    show s.text :: (zeroLastPostDelay (t :: rest)).map (·.text) = _
    rw [ih]
    rfl

/-- `zeroLastPostDelay` keeps the slide numbers. -/
theorem zeroLastPostDelay_num : ∀ l : List TextSlide,
    (zeroLastPostDelay l).map (·.slideNumber) = l.map (·.slideNumber) := by
  intro l
  match l with
  | [] => rfl
  | [s] => rfl
  | s :: t :: rest =>
    have ih := zeroLastPostDelay_num (t :: rest)
    show s.slideNumber :: (zeroLastPostDelay (t :: rest)).map (·.slideNumber) = _
    rw [ih]
    rfl

/-- `zeroLastPostDelay` keeps the continuation flags. -/
theorem zeroLastPostDelay_flag : ∀ l : List TextSlide,
    (zeroLastPostDelay l).map (·.isChildOfPrevious) =
      l.map (·.isChildOfPrevious) := by
  intro l
  match l with
  | [] => rfl
  | [s] => rfl
  | s :: t :: rest =>
    have ih := zeroLastPostDelay_flag (t :: rest)
    show s.isChildOfPrevious ::
      (zeroLastPostDelay (t :: rest)).map (·.isChildOfPrevious) = _
    rw [ih]
    rfl

/-- The long-word items' texts contain no whitespace. -/
theorem longWordItems_text_nospace (w : Str)
    (hplain : ∀ c ∈ w, plainWordChar c = true) :
    ∀ it ∈ longWordItems w 1, ∀ c ∈ it.text, jsSpace c = false := by
  intro it hit c hc
  obtain ⟨p, hp, hor⟩ := longWordItemsAux_text_chars w 1 _ _ 0 it hit
  have hpw : ∀ d ∈ p, d ∈ w := by
    intro d hd
    have : d ∈ (splitLongWord w).flatten := List.mem_flatten.2 ⟨p, hp, hd⟩
    rwa [(splitLongWord_spec w).1] at this
  rcases hor with h | h <;> rw [h] at hc
  · rcases List.mem_append.1 hc with hcp | hcd
    · exact (plainWordChar_spec c (hplain c (hpw c hcp))).1
    · have : c = '-' := List.mem_singleton.1 hcd
      rw [this]
      rfl
  · exact (plainWordChar_spec c (hplain c (hpw c hc))).1

/-- The long-word item list has one item per piece. -/
theorem longWordItemsAux_length (word : Str) (n total : ℕ) :
    ∀ (ps : List Str) (idx : ℕ),
      (longWordItemsAux word n total idx ps).length = ps.length := by
  intro ps
  induction ps with
  | nil => intro idx; rfl
  | cons p rest ih =>
    intro idx
    show (longWordItemsAux word n total (idx + 1) rest).length + 1 = _
    rw [ih (idx + 1)]
    rfl

/-- Claim C9, amended: a word of plain word characters (e.g. lowercase
letters) longer than 17 characters, tokenized at one word per slide, is
split by `splitLongWord` into at least two non-empty pieces of at most 10
characters; the slide texts are those pieces with a trailing hyphen
appended to every piece but the last; the continuation flag is false on
the first fragment and true on all others.  The fragments do NOT all share
one slide number in the output: the first fragment is numbered 1 and every
other fragment 2 (the shared numbering exists only in the first-pass
items). -/
theorem C9_long_word_split (w : Str) (settings : ReaderSettings)
    (hplain : ∀ c ∈ w, plainWordChar c = true) (hlen : 17 < w.length)
    (hcs : settings.chunkSize = 1) :
    (tokenizeText w settings).map (·.text) =
        hyphenated (splitLongWord w).length 0 (splitLongWord w) ∧
      (∀ p ∈ splitLongWord w, p ≠ [] ∧ p.length ≤ 10) ∧
      2 ≤ (splitLongWord w).length ∧
      (tokenizeText w settings).map (·.isChildOfPrevious) =
        false :: List.replicate ((splitLongWord w).length - 1) true ∧
      (tokenizeText w settings).map (·.slideNumber) =
        1 :: List.replicate ((splitLongWord w).length - 1) 2 := by
  have hne : w ≠ [] := by
    intro h
    rw [h] at hlen
    simp at hlen
  have hstruct := longWordItems_structure w 1 hne
  unfold tokenizeText
  rw [firstPass_single_long w settings hplain hlen hcs,
    secondPass_longWordItems w hplain]
  have htexts := (buildSlides_one_texts settings hcs (longWordItems w 1).length 1
    (longWordItems w 1) (le_refl _)).1
  have hflagsB := (buildSlides_one_texts settings hcs (longWordItems w 1).length 1
    (longWordItems w 1) (le_refl _)).2
  refine ⟨?_, (splitLongWord_spec w).2.1, splitLongWord_two_pieces w (by omega),
    ?_, ?_⟩
  · rw [zeroLastPostDelay_text, htexts]
    have : (longWordItems w 1).map (fun it => jsTrim it.text) =
        (longWordItems w 1).map (·.text) :=
      List.map_congr_left (fun it hit =>
        jsTrim_id it.text (longWordItems_text_nospace w hplain it hit))
    rw [this]
    exact longWordItemsAux_texts w 1 _ _ 0
  · rw [zeroLastPostDelay_flag, hflagsB]
    exact hstruct.1
  · rw [zeroLastPostDelay_num]
    rcases hitems : longWordItems w 1 with _ | ⟨it0, rest⟩
    · rw [hitems] at hstruct
      cases hstruct.1
    · have hflags := hstruct.1
      rw [hitems, List.map_cons] at hflags
      injection hflags with h1 h2
      have hrl : rest.length = (splitLongWord w).length - 1 := by
        have := congrArg List.length h2
        simpa using this
      show (buildSlides settings (it0 :: rest).length 1 (it0 :: rest)).map
        (·.slideNumber) = _
      rw [show (it0 :: rest).length = rest.length + 1 from rfl,
        buildSlides_cons_one settings hcs rest.length 1 it0 rest, h1,
        if_neg Bool.false_ne_true, List.map_cons]
      rw [buildSlides_one_nums_children settings hcs rest.length 2 rest
        (le_refl _) (fun it hit => by
          have hmem : it.isChildOfPrevious ∈ rest.map (·.isChildOfPrevious) :=
            List.mem_map.2 ⟨it, hit, rfl⟩
          rw [h2] at hmem
          exact List.eq_of_mem_replicate hmem)]
      rw [hrl]
      rfl

/-- Witness for C9 on the 25-character consonant word with the default
settings. -/
theorem C9_long_word_split_witness :
    (tokenizeText longWordB DEFAULT_SETTINGS).map (·.text) =
        hyphenated (splitLongWord longWordB).length 0 (splitLongWord longWordB) ∧
      (∀ p ∈ splitLongWord longWordB, p ≠ [] ∧ p.length ≤ 10) ∧
      2 ≤ (splitLongWord longWordB).length ∧
      (tokenizeText longWordB DEFAULT_SETTINGS).map (·.isChildOfPrevious) =
        false :: List.replicate ((splitLongWord longWordB).length - 1) true ∧
      (tokenizeText longWordB DEFAULT_SETTINGS).map (·.slideNumber) =
        1 :: List.replicate ((splitLongWord longWordB).length - 1) 2 :=
  C9_long_word_split longWordB DEFAULT_SETTINGS (by decide) (by decide) rfl

/-- Counterexample to claim C9 as stated: the three fragments of a
25-character word all stem from that one word, yet their slide numbers in
`tokenizeText` output are `[1, 2, 2]` — the fragments do not all share one
slide number. -/
theorem C9_counterexample :
    (tokenizeText longWordA DEFAULT_SETTINGS).map (·.textOriginal) =
        List.replicate 3 longWordA ∧
      (tokenizeText longWordA DEFAULT_SETTINGS).map (·.text) =
        [List.replicate 10 'a' ++ ['-'], List.replicate 10 'a' ++ ['-'],
          List.replicate 5 'a'] ∧
      (tokenizeText longWordA DEFAULT_SETTINGS).map (·.slideNumber) =
        [1, 2, 2] ∧ (1 : ℕ) ≠ 2 :=
  ⟨by decide, by decide, by decide, by decide⟩

/-- Unfolding equation for `buildChunksAux` at positive fuel. -/
theorem buildChunksAux_succ (text : Str) (cs fuel ci : ℕ) :
    buildChunksAux text cs (fuel + 1) ci =
      if ci < text.length then
        { startChar := ci
          endChar :=
            if (if min (ci + cs) text.length < text.length then
                  pullBack text ci (min (ci + cs) text.length)
                else min (ci + cs) text.length) = ci then
              min (ci + cs) text.length
            else
              (if min (ci + cs) text.length < text.length then
                pullBack text ci (min (ci + cs) text.length)
              else min (ci + cs) text.length)
          text := (text.drop ci).take
            ((if (if min (ci + cs) text.length < text.length then
                    pullBack text ci (min (ci + cs) text.length)
                  else min (ci + cs) text.length) = ci then
                min (ci + cs) text.length
              else
                (if min (ci + cs) text.length < text.length then
                  pullBack text ci (min (ci + cs) text.length)
                else min (ci + cs) text.length)) - ci)
          processed := false
          slides := []
          slideStartIndex := 0 } ::
          buildChunksAux text cs fuel
            (if (if min (ci + cs) text.length < text.length then
                  pullBack text ci (min (ci + cs) text.length)
                else min (ci + cs) text.length) = ci then
              min (ci + cs) text.length
            else
              (if min (ci + cs) text.length < text.length then
                pullBack text ci (min (ci + cs) text.length)
              else min (ci + cs) text.length))
      else [] := rfl

/-- `buildChunksAux` stops at the end of the text. -/
theorem buildChunksAux_stop (text : Str) (cs : ℕ) :
    ∀ (fuel ci : ℕ), text.length ≤ ci → buildChunksAux text cs fuel ci = [] := by
  intro fuel ci h
  cases fuel with
  | zero => rfl
  | succ fuel =>
    rw [buildChunksAux_succ, if_neg (not_lt.2 h)]

/-- A non-empty text that fits in one chunk budget yields a single chunk. -/
theorem buildChunks_single (text : Str) (cs : ℕ) (h0 : text ≠ [])
    (hle : text.length ≤ cs) :
    buildChunks text cs =
      [{ startChar := 0, endChar := text.length, text := text,
         processed := false, slides := [], slideStartIndex := 0 }] := by
  have hpos : 0 < text.length := List.length_pos.2 h0
  unfold buildChunks
  obtain ⟨m, hm⟩ : ∃ m, text.length = m + 1 := ⟨text.length - 1, by omega⟩
  conv_lhs => rw [hm]
  rw [buildChunksAux_succ, if_pos hpos]
  have hmin : min (0 + cs) text.length = text.length :=
    min_eq_right (by omega)
  rw [hmin, if_neg (lt_irrefl text.length), if_neg (by omega : ¬(text.length = 0)),
    buildChunksAux_stop text cs m text.length (le_refl _), List.drop_zero,
    Nat.sub_zero, List.take_length]

/-- Constructing a processor over a text that fits in one chunk processes
that single chunk at construction. -/
theorem createChunkedProcessor_single (fm : FreqModel) (text : Str)
    (settings : ReaderSettings) (cs : ℕ) (h0 : text ≠ [])
    (hle : text.length ≤ cs) :
    createChunkedProcessor fm text settings cs =
      ⟨settings,
       [⟨0, text.length, text, true,
         renumberFrom 0 0 (applyTiming fm (tokenizeText text settings) settings), 0⟩],
       0 + (renumberFrom 0 0 (applyTiming fm (tokenizeText text settings) settings)).length,
       1,
       ceilDivNat (text.length * (renumberFrom 0 0
         (applyTiming fm (tokenizeText text settings) settings)).length)
         (text.length - 0)⟩ := by
  unfold createChunkedProcessor
  rw [buildChunks_single text cs h0 hle]
  rfl

/-- `processAll` is the identity once the cursor has passed every chunk. -/
theorem processAllAux_exhausted (fm : FreqModel) :
    ∀ (fuel : ℕ) (st : ProcState),
      ¬ st.currentChunkIndex < st.chunks.length →
      processAllAux fm fuel st = st := by
  intro fuel st h
  cases fuel with
  | zero => rfl
  | succ fuel =>
    unfold processAllAux
    rw [if_neg h]

/-- `renumberFrom` preserves every slide-number-independent projection. -/
theorem renumberFrom_map_proj {α : Type} (f : TextSlide → α)
    (hf : ∀ (s : TextSlide) (m : ℕ), f { s with slideNumber := m } = f s)
    (b : ℕ) : ∀ (i : ℕ) (l : List TextSlide),
      (renumberFrom b i l).map f = l.map f := by
  intro i l
  induction l generalizing i with
  | nil => rfl
  | cons s rest ih =>
    show f { s with slideNumber := b + i + 1 } ::
      (renumberFrom b (i + 1) rest).map f = _
    rw [hf, ih (i + 1)]
    rfl

/-- `renumberFrom` stamps consecutive slide numbers. -/
theorem renumberFrom_map_num (b : ℕ) :
    ∀ (i : ℕ) (l : List TextSlide),
      (renumberFrom b i l).map (·.slideNumber) =
        List.range' (b + i + 1) l.length := by
  intro i l
  induction l generalizing i with
  | nil => rfl
  | cons s rest ih =>
    show (b + i + 1) :: (renumberFrom b (i + 1) rest).map (·.slideNumber) = _
    rw [ih (i + 1), show b + (i + 1) + 1 = b + i + 1 + 1 from by omega,
      List.length_cons, List.range'_succ]

/-- Claim C1, amended: for a non-empty text that fits in a single chunk
(where no word can straddle a chunk boundary), driving the chunked
processor to completion yields exactly the direct pipeline's slides with
one exception: `processChunk` renumbers the slides to the consecutive
global positions `1, 2, …, n`, whereas the direct pipeline lets fragments
of a split word keep their own numbering.  Texts, durations, delays,
word counts and continuation flags agree position by position. -/
theorem C1_chunked_refinement (fm : FreqModel) (text : Str)
    (settings : ReaderSettings) (cs : ℕ) (h0 : text ≠ [])
    (hle : text.length ≤ cs) :
    allSlides (processAllSt fm (createChunkedProcessor fm text settings cs)) =
        renumberFrom 0 0 (processText fm text settings).slides ∧
      (allSlides (processAllSt fm (createChunkedProcessor fm text settings cs))).map
          (·.text) = (processText fm text settings).slides.map (·.text) ∧
      (allSlides (processAllSt fm (createChunkedProcessor fm text settings cs))).map
          (·.duration) = (processText fm text settings).slides.map (·.duration) ∧
      (allSlides (processAllSt fm (createChunkedProcessor fm text settings cs))).map
          (·.preDelay) = (processText fm text settings).slides.map (·.preDelay) ∧
      (allSlides (processAllSt fm (createChunkedProcessor fm text settings cs))).map
          (·.postDelay) = (processText fm text settings).slides.map (·.postDelay) ∧
      (allSlides (processAllSt fm (createChunkedProcessor fm text settings cs))).map
          (·.wordsInSlide) = (processText fm text settings).slides.map (·.wordsInSlide) ∧
      (allSlides (processAllSt fm (createChunkedProcessor fm text settings cs))).map
          (·.isChildOfPrevious) =
        (processText fm text settings).slides.map (·.isChildOfPrevious) ∧
      (allSlides (processAllSt fm (createChunkedProcessor fm text settings cs))).map
          (·.slideNumber) =
        List.range' 1 (processText fm text settings).slides.length := by
  have hstate := createChunkedProcessor_single fm text settings cs h0 hle
  have hmain : allSlides (processAllSt fm (createChunkedProcessor fm text settings cs)) =
      renumberFrom 0 0 (processText fm text settings).slides := by
    rw [hstate]
    unfold processAllSt
    rw [processAllAux_exhausted fm _ _ (by simp)]
    show (renumberFrom 0 0 (applyTiming fm (tokenizeText text settings) settings)) ++ [] = _
    rw [List.append_nil]
    rfl
  refine ⟨hmain, ?_, ?_, ?_, ?_, ?_, ?_, ?_⟩ <;> rw [hmain]
  · exact renumberFrom_map_proj (fun s => s.text) (fun s m => rfl) 0 0 _
  · exact renumberFrom_map_proj (fun s => s.duration) (fun s m => rfl) 0 0 _
  · exact renumberFrom_map_proj (fun s => s.preDelay) (fun s m => rfl) 0 0 _
  · exact renumberFrom_map_proj (fun s => s.postDelay) (fun s m => rfl) 0 0 _
  · exact renumberFrom_map_proj (fun s => s.wordsInSlide) (fun s m => rfl) 0 0 _
  · exact renumberFrom_map_proj (fun s => s.isChildOfPrevious) (fun s m => rfl) 0 0 _
  · exact renumberFrom_map_num 0 0 _

/-- Witness for C1 on the concrete text `"a b"` with chunk budget 10. -/
theorem C1_chunked_refinement_witness :
    allSlides (processAllSt trivFreq
        (createChunkedProcessor trivFreq ['a', ' ', 'b'] DEFAULT_SETTINGS 10)) =
      renumberFrom 0 0 (processText trivFreq ['a', ' ', 'b'] DEFAULT_SETTINGS).slides :=
  (C1_chunked_refinement trivFreq ['a', ' ', 'b'] DEFAULT_SETTINGS 10
    (by decide) (by decide)).1

/-- Counterexample to claim C1 as stated: on a 25-character single word —
one chunk, so no word straddles a chunk boundary — the fully processed
chunked processor's slides carry numbers `[1, 2, 3]` while the direct
pipeline's slides carry `[1, 2, 2]`: the outputs differ although every
slide text agrees. -/
theorem C1_counterexample :
    (allSlides (processAllSt trivFreq
        (createChunkedProcessor trivFreq longWordA DEFAULT_SETTINGS 10000))).map
          (·.slideNumber) = [1, 2, 3] ∧
      (processText trivFreq longWordA DEFAULT_SETTINGS).slides.map
          (·.slideNumber) = [1, 2, 2] ∧
      (allSlides (processAllSt trivFreq
        (createChunkedProcessor trivFreq longWordA DEFAULT_SETTINGS 10000))).map
          (·.text) =
        (processText trivFreq longWordA DEFAULT_SETTINGS).slides.map (·.text) ∧
      allSlides (processAllSt trivFreq
          (createChunkedProcessor trivFreq longWordA DEFAULT_SETTINGS 10000)) ≠
        (processText trivFreq longWordA DEFAULT_SETTINGS).slides :=
  ⟨by decide, by decide, by decide,
   fun h => absurd (congrArg (List.map (fun s => s.slideNumber)) h) (by decide)⟩
